import Mathlib

/-!
# Fan-out / fan-in file generation pipeline (`main.go`)

A shallow embedding of the Go program and a verification of its specification.

* Sequential code (`randomString`, the body of the job source, the body of a
  worker for one job, the aggregation loop of `generateFiles`) is embedded as
  ordinary functions.
* The goroutines of `generateFileIndexes` and `createFiles` together with the
  draining loop of `generateFiles` are embedded as a labelled transition
  system: a state holds the control point of every goroutine, one `Action`
  is one atomic step of one goroutine (or one rendezvous on an unbuffered
  channel), and an interleaving is a list of actions.
* Go `int` is embedded as `Int`; no arithmetic of the program can overflow for
  inputs below `2 ^ 63`, so no wrap-around is modelled.  The length check of
  `make` is modelled: a slice whose size exceeds the allocation limit of the
  runtime is a panic.
* Library calls are embedded by their documented behaviour:
  `fmt.Sprintf("%d")` is decimal notation, `rand.Intn n` is some value below
  `n`, `filepath.Join` is lexical joining followed by `filepath.Clean`, and
  the outcome of `ioutil.WriteFile` is chosen by the environment.
-/

namespace Pipeline

/-! ## Constants and data model (`main.go` lines 15-25) -/

/-- Source constant `totalFile`. -/
def totalFile : Nat := 3000

/-- Source constant `contentLength`. -/
def contentLength : Int := 5000

/-- Source variable `tmpPath` (never assigned after initialisation). -/
def tmpPath : String := "random-files"

/-- Source struct `FileInfo`; a Go `error` is embedded as its optional message,
`none` standing for `nil`. -/
structure FileInfo where
  Index : Int
  FileName : String
  WorkerIndex : Int
  Err : Option String
deriving DecidableEq, Repr

/-! ## `randomString` (lines 42-50) -/

/-- The alphabet `[]rune("abc...XYZ")` of `randomString`. -/
def letters : List Char :=
  "abcdefghijklmnopqrstuvwxyzABCDEFGHIJKLMNOPQRSTUVWXYZ".toList

/-- Library call `rand.Intn n`: panics (`none`) for `n = 0`, otherwise yields a
value in `[0, n)`; `raw` is the raw output of the generator for this call, so
that every behaviour with values in `[0, n)` is obtained from some `raw`. -/
def intn (n : Nat) (raw : Nat) : Option Nat :=
  if n = 0 then none else some (raw % n)

/-- The loop `for i := range result { result[i] = letters[rand.Intn(len(letters))] }`:
`todo` iterations remain, `i` is the loop variable, `src i` is the raw random
value of iteration `i`.  An index outside `letters` is a panic (`none`). -/
def randomStringLoop (src : Nat → Nat) : Nat → Nat → List Char → Option (List Char)
  | 0, _, result => some result
  | todo + 1, i, result =>
    match intn letters.length (src i) with
    | none => none
    | some idx =>
      match letters.get? idx with
      | none => none
      | some r => randomStringLoop src todo (i + 1) (result.set i r)

/-- Runtime constant `maxAlloc`, the largest size in bytes of one allocation, on
64-bit platforms (48 address bits). -/
def maxAlloc : Nat := 2 ^ 48

/-- Size in bytes of a `rune` (`int32`). -/
def runeSize : Nat := 4

/-- Builtin call `make([]rune, length)`: the runtime check of `makeslice` panics
(`makeslice: len out of range`, here `none`) when `length` is negative or when
`runeSize * length` overflows or exceeds `maxAlloc`; with unbounded integers an
overflowing product also exceeds `maxAlloc`.  Otherwise the slice has `length`
zero runes.  Exhaustion of physical memory below that limit is a fatal error of
the environment and is not modelled. -/
def makeRunes (length : Int) : Option (List Char) :=
  if length < 0 ∨ (maxAlloc : Int) < (runeSize : Int) * length then none
  else some (List.replicate length.toNat (Char.ofNat 0))

/-- Source function `randomString`: `make([]rune, length)` may panic, the slice
starts zeroed, the loop over its `length` indices fills it, `string(result)`
converts. -/
def randomString (length : Int) (src : Nat → Nat) : Option String :=
  match makeRunes length with
  | none => none
  | some result => (randomStringLoop src length.toNat 0 result).map String.mk

/-! ## The job source `generateFileIndexes` (lines 82-96) -/

/-- Library call `fmt.Sprintf("file-%d.txt", i)` for the loop variable `i`. -/
def sprintfFileName (i : Nat) : String :=
  "file-" ++ toString i ++ ".txt"

/-- The composite literal `FileInfo{Index: i, FileName: ...}` of line 87; the
fields not named keep their zero value. -/
def mkJob (i : Nat) : FileInfo :=
  { Index := (i : Int), FileName := sprintfFileName i, WorkerIndex := 0, Err := none }

/-- One operation of a goroutine on a channel it writes to. -/
inductive ChanOp where
  | send (v : FileInfo)
  | close
deriving DecidableEq, Repr

/-- The goroutine body of `generateFileIndexes` from loop variable `i` with
`todo = totalFile - i` iterations left: the operations it performs on `chOut`
in program order. -/
def generateFileIndexesFrom : Nat → Nat → List ChanOp
  | _, 0 => [ChanOp.close]
  | i, todo + 1 => ChanOp.send (mkJob i) :: generateFileIndexesFrom (i + 1) todo

/-- Source function `generateFileIndexes`, with the constant `totalFile` as the
parameter `total`. -/
def generateFileIndexes (total : Nat) : List ChanOp :=
  generateFileIndexesFrom 0 total

/-- The values sent by a sequence of channel operations before the first close. -/
def sentBeforeClose : List ChanOp → List FileInfo
  | [] => []
  | ChanOp.send v :: ops => v :: sentBeforeClose ops
  | ChanOp.close :: _ => []

/-! ## The aggregation loop of `generateFiles` (lines 65-79) -/

/-- Local state of the draining loop: the two counters and the lines logged. -/
structure AggState where
  counterTotal : Int
  counterSuccess : Int
  log : List String
deriving DecidableEq, Repr

/-- Message of `log.Printf("error creating file %s. stack trace: %s", ...)`. -/
def errorLine (fileName err : String) : String :=
  "error creating file " ++ fileName ++ ". stack trace: " ++ err

/-- Message of `log.Printf("%d/%d of total files created", ...)`. -/
def summaryLine (counterSuccess counterTotal : Int) : String :=
  toString counterSuccess ++ "/" ++ toString counterTotal ++ " of total files created"

/-- Counters at lines 66-67. -/
def aggInit : AggState :=
  { counterTotal := 0, counterSuccess := 0, log := [] }

/-- One iteration of `for fileResult := range chanFileResult` (lines 70-76). -/
def aggStep (st : AggState) (fileResult : FileInfo) : AggState :=
  let st1 : AggState :=
    match fileResult.Err with
    | some e => { st with log := st.log ++ [errorLine fileResult.FileName e] }
    | none => { st with counterSuccess := st.counterSuccess + 1 }
  { st1 with counterTotal := st1.counterTotal + 1 }

/-- Line 79, executed once the range loop has ended. -/
def aggFinish (st : AggState) : AggState :=
  { st with log := st.log ++ [summaryLine st.counterSuccess st.counterTotal] }

/-- The loop of lines 66-79 run on the sequence `rs` of results drained from the
output channel. -/
def drainResults (rs : List FileInfo) : AggState :=
  aggFinish (rs.foldl aggStep aggInit)

/-! ## `filepath.Join` (library, Unix rules) -/

/-- Split a path at every separator `/`. -/
def splitSep : List Char → List (List Char)
  | [] => [[]]
  | c :: cs =>
    if c = '/' then [] :: splitSep cs
    else
      match splitSep cs with
      | [] => [[c]]
      | e :: es => (c :: e) :: es

/-- The element pass of `filepath.Clean`: empty and `.` elements are dropped, a
`..` element removes the element before it unless that is itself `..`, and a
leading `..` is kept on a relative path and dropped on a rooted one.  `out` is
the stack of elements kept so far, last first. -/
def cleanElems (rooted : Bool) : List (List Char) → List (List Char) → List (List Char)
  | [], out => out.reverse
  | e :: es, out =>
    if e = [] ∨ e = ['.'] then cleanElems rooted es out
    else if e = ['.', '.'] then
      match out with
      | top :: rest =>
        if top = ['.', '.'] then cleanElems rooted es (e :: out)
        else cleanElems rooted es rest
      | [] => if rooted then cleanElems rooted es [] else cleanElems rooted es [e]
    else cleanElems rooted es (e :: out)

/-- Join path elements with `/` between them. -/
def joinElems : List (List Char) → List Char
  | [] => []
  | [e] => e
  | e :: es => e ++ '/' :: joinElems es

/-- Library function `filepath.Clean` on Unix. -/
def filepathClean (path : String) : String :=
  if path = "" then "."
  else
    let rooted : Bool := path.data.head? = some '/'
    let body := joinElems (cleanElems rooted (splitSep path.data) [])
    if rooted then String.mk ('/' :: body)
    else if body = [] then "."
    else String.mk body

/-- Library function `filepath.Join` for two elements on Unix: leading empty
elements are ignored, the rest is joined with `/` and cleaned. -/
def filepathJoin (a b : String) : String :=
  if a ≠ "" then filepathClean (a ++ "/" ++ b)
  else if b ≠ "" then filepathClean b
  else ""

/-! ## The worker goroutine of `createFiles` (lines 110-129) -/

/-- A call `ioutil.WriteFile(path, []byte(content), os.ModePerm)`. -/
structure WriteOp where
  path : String
  content : String
deriving DecidableEq, Repr

/-- Lines 113-115 for one job: the write the worker issues; `none` is a panic
inside `randomString`. -/
def workerWrite (job : FileInfo) (src : Nat → Nat) : Option WriteOp :=
  let filePath := filepathJoin tmpPath job.FileName
  match randomString contentLength src with
  | none => none
  | some content => some { path := filePath, content := content }

/-- Message of `log.Println("worker", worker, "working on", job.FileName, "file generation")`. -/
def progressLine (worker : Nat) (fileName : String) : String :=
  "worker " ++ toString worker ++ " working on " ++ fileName ++ " file generation"

/-- The composite literal of lines 118-122; `Index` is not named there and keeps
its zero value. -/
def mkResult (worker : Nat) (job : FileInfo) (err : Option String) : FileInfo :=
  { Index := 0, FileName := job.FileName, WorkerIndex := (worker : Int), Err := err }

/-- Control point of one worker goroutine. -/
inductive Worker where
  /-- at `for job := range chIn`, ready to receive -/
  | idle
  /-- holds `job`, lines 113-116 not yet executed -/
  | working (job : FileInfo)
  /-- blocked in `chOut <- r` -/
  | sending (r : FileInfo)
  /-- the range loop has ended, `wg.Done()` not yet called -/
  | exited
  /-- `wg.Done()` has been called -/
  | done
deriving DecidableEq, Repr

/-! ## The pipeline as a transition system -/

/-- Global state of the goroutines started by `generateFileIndexes` and
`createFiles` and of the draining loop of `generateFiles`.  The fields
`received`, `writes` and `progress` are histories that the program does not
store. -/
structure State where
  /-- operations the job source goroutine has still to perform on `chIn` -/
  chIn : List ChanOp
  /-- `chIn` has been closed -/
  inClosed : Bool
  /-- the workers dispatched so far; position = the argument `worker` -/
  workers : List Worker
  /-- counter of the wait group `wg` -/
  wg : Int
  /-- `wg.Wait()` of the supervisor goroutine has returned -/
  waited : Bool
  /-- `chOut` has been closed -/
  outClosed : Bool
  /-- counters and log of the draining loop -/
  agg : AggState
  /-- the draining loop has ended and line 79 has run -/
  finished : Bool
  /-- results received by the draining loop, in arrival order -/
  received : List FileInfo
  /-- calls of `ioutil.WriteFile`, in the order issued -/
  writes : List WriteOp
  /-- progress lines logged by the workers -/
  progress : List String
  /-- a goroutine has panicked (send on or close of a closed channel, negative
  wait-group counter, panic inside `randomString`) -/
  panicked : Bool
deriving DecidableEq, Repr

/-- State right after `createFiles(chIn, numberOfWorkers)` has returned: `chOut`
is made, `wg.Add(numberOfWorkers)` is done, no goroutine has run yet. -/
def createFiles (chIn : List ChanOp) (numberOfWorkers : Nat) : State :=
  { chIn := chIn, inClosed := false, workers := [], wg := (numberOfWorkers : Int),
    waited := false, outClosed := false, agg := aggInit, finished := false,
    received := [], writes := [], progress := [], panicked := false }

/-- One atomic step of the system.  The environment's choices (raw random values
and the outcome of the file write) are part of the label. -/
inductive Action where
  /-- dispatcher loop, line 110: `go func(worker int) {...}(worker)` -/
  | spawn
  /-- rendezvous on `chIn`: the job source sends, worker `w` receives -/
  | take (w : Nat)
  /-- worker `w` runs lines 113-116 -/
  | work (w : Nat) (src : Nat → Nat) (err : Option String)
  /-- worker `w` executes `chOut <- r`: rendezvous with the draining loop, or
  panic if `chOut` is closed -/
  | emit (w : Nat)
  /-- the range loop of worker `w` finds `chIn` closed -/
  | inputClosed (w : Nat)
  /-- worker `w` calls `wg.Done()` -/
  | done (w : Nat)
  /-- the job source executes `close(chOut)`, line 92 -/
  | closeIn
  /-- `wg.Wait()` returns in the supervisor, line 137 -/
  | waitReturn
  /-- the supervisor executes `close(chOut)`, line 138 -/
  | closeOut
  /-- the draining loop finds `chOut` closed and line 79 runs -/
  | drainEnd

/-- The transition function: `step n s a` is the state after action `a`, or
`none` when `a` is not enabled in `s` (the goroutine is blocked, is not at that
control point, or the program has panicked).

Channel and wait-group rules used (Go language specification and `sync`):
a send on an unbuffered channel completes together with a receive; a range
loop over a channel ends when the channel is closed; a send on a closed channel
and a close of a closed channel panic; `wg.Done()` lowers the counter and
panics below zero; `wg.Wait()` returns when the counter is zero. -/
def step (numberOfWorkers : Nat) (s : State) : Action → Option State
  | Action.spawn =>
    -- lines 109-110: one iteration of `for worker := 0; worker < numberOfWorkers; worker++`
    if s.panicked then none
    else if s.workers.length < numberOfWorkers then
      some { s with workers := s.workers ++ [Worker.idle] }
    else none
  | Action.take w =>
    -- line 87 `chOut <- FileInfo{...}` of the job source meets line 112 `job := range chIn`
    if s.panicked then none
    else
      match s.workers.get? w, s.chIn with
      | some Worker.idle, ChanOp.send job :: rest =>
        some { s with chIn := rest, workers := s.workers.set w (Worker.working job) }
      | _, _ => none
  | Action.work w src err =>
    -- lines 113-116; line 118 builds the result the worker then tries to send
    if s.panicked then none
    else
      match s.workers.get? w with
      | some (Worker.working job) =>
        match workerWrite job src with
        | none => some { s with panicked := true }
        | some op =>
          some { s with
            writes := s.writes ++ [op],
            progress := s.progress ++ [progressLine w job.FileName],
            workers := s.workers.set w (Worker.sending (mkResult w job err)) }
      | _ => none
  | Action.emit w =>
    -- line 118 `chOut <- FileInfo{...}` meets line 69 `fileResult := range chanFileResult`,
    -- followed by the loop body, lines 70-76
    if s.panicked then none
    else
      match s.workers.get? w with
      | some (Worker.sending r) =>
        if s.outClosed then some { s with panicked := true }
        else if s.finished then none
        else
          some { s with
            workers := s.workers.set w Worker.idle,
            agg := aggStep s.agg r,
            received := s.received ++ [r] }
      | _ => none
  | Action.inputClosed w =>
    -- line 112: the range loop ends because `chIn` is closed
    if s.panicked then none
    else
      match s.workers.get? w with
      | some Worker.idle =>
        if s.inClosed then some { s with workers := s.workers.set w Worker.exited }
        else none
      | _ => none
  | Action.done w =>
    -- line 127 `wg.Done()`
    if s.panicked then none
    else
      match s.workers.get? w with
      | some Worker.exited =>
        if s.wg - 1 < 0 then some { s with panicked := true }
        else some { s with wg := s.wg - 1, workers := s.workers.set w Worker.done }
      | _ => none
  | Action.closeIn =>
    -- line 92 `close(chOut)` of the job source, reached when its loop has ended
    if s.panicked then none
    else
      match s.chIn with
      | ChanOp.close :: rest =>
        if s.inClosed then some { s with panicked := true }
        else some { s with chIn := rest, inClosed := true }
      | _ => none
  | Action.waitReturn =>
    -- line 137 `wg.Wait()`
    if s.panicked then none
    else if s.waited = false ∧ s.wg = 0 then some { s with waited := true }
    else none
  | Action.closeOut =>
    -- line 138 `close(chOut)`
    if s.panicked then none
    else if s.waited = true ∧ s.outClosed = false then some { s with outClosed := true }
    else none
  | Action.drainEnd =>
    -- line 69: the range loop ends because `chanFileResult` is closed; then line 79
    if s.panicked then none
    else if s.outClosed = true ∧ s.finished = false then
      some { s with finished := true, agg := aggFinish s.agg }
    else none

/-- Run a schedule (an interleaving) from a state; `none` when some action of
the schedule is not enabled where it stands. -/
def run (numberOfWorkers : Nat) : State → List Action → Option State
  | s, [] => some s
  | s, a :: as =>
    match step numberOfWorkers s a with
    | none => none
    | some s' => run numberOfWorkers s' as

/-- Outcome of the two directory calls at lines 53-54 (`nil` or an error). -/
structure SetupOutcome where
  removeAllErr : Option String
  mkdirAllErr : Option String
deriving DecidableEq, Repr

/-- Source function `generateFiles` under the schedule `sched`, with the constant
`totalFile` and the value of `runtime.NumCPU()` as parameters.  Lines 53-54
call `os.RemoveAll` and `os.MkdirAll` as statements: whatever they return is
discarded, and lines 58-63 start the pipeline. -/
def generateFiles (total numCPU : Nat) (_setup : SetupOutcome) (sched : List Action) :
    Option State :=
  let chanFileIndex := generateFileIndexes total
  let workers := numCPU
  run workers (createFiles chanFileIndex workers) sched

/-! ## Notions used to state properties of executions -/

/-- Names of the jobs the job source has still to send. -/
def jobNames : List ChanOp → List String
  | [] => []
  | ChanOp.send v :: ops => v.FileName :: jobNames ops
  | ChanOp.close :: ops => jobNames ops

/-- Name of the job or result a worker holds, if any. -/
def Worker.held : Worker → List String
  | Worker.working job => [job.FileName]
  | Worker.sending r => [r.FileName]
  | _ => []

/-- Path already written by a worker that has not yet delivered its result. -/
def Worker.written : Worker → List String
  | Worker.sending r => [filepathJoin tmpPath r.FileName]
  | _ => []

/-- How often the name `x` is held by a worker (0 or 1). -/
def heldCount (x : String) (w : Worker) : Nat :=
  w.held.count x

/-- How often the path `p` has been written by a worker that still holds the
result (0 or 1). -/
def writtenCount (p : String) (w : Worker) : Nat :=
  w.written.count p

/-- Sum of a weight over the workers. -/
def sumW (f : Worker → Nat) : List Worker → Nat
  | [] => 0
  | w :: ws => f w + sumW f ws

/-- A worker that has called `wg.Done()` counts 1. -/
def Worker.doneBit : Worker → Nat
  | Worker.done => 1
  | _ => 0

/-- Number of steps a worker can still take before it needs a new job. -/
def Worker.weight : Worker → Nat
  | Worker.idle => 2
  | Worker.working _ => 4
  | Worker.sending _ => 3
  | Worker.exited => 1
  | Worker.done => 0

/-- A bound on the number of steps left: every step lowers it. -/
def measure (numberOfWorkers : Nat) (s : State) : Nat :=
  3 * s.chIn.length + 3 * (numberOfWorkers - s.workers.length) + sumW Worker.weight s.workers
    + (if s.waited then 0 else 1) + (if s.outClosed then 0 else 1)
    + (if s.finished then 0 else 1) + (if s.panicked then 0 else 1)

/-- The names of all jobs of a run with `total` files. -/
def allNames (total : Nat) : List String :=
  (List.range total).map sprintfFileName

/-- A result is well formed when it was built at lines 118-122 by a worker below
`n` from a job of the job source. -/
def IsResult (total numberOfWorkers : Nat) (r : FileInfo) : Prop :=
  ∃ w i err, w < numberOfWorkers ∧ i < total ∧ r = mkResult w (mkJob i) err

/-- What a worker may hold: a job of the job source, or a result built from one
by this worker. -/
def Worker.WellFormed (total : Nat) (w : Nat) : Worker → Prop
  | Worker.working job => ∃ i, i < total ∧ job = mkJob i
  | Worker.sending r => ∃ i err, i < total ∧ r = mkResult w (mkJob i) err
  | _ => True

/-- A write as lines 113-115 issue it: the path is `tmpPath` joined with a job
name and the content is `contentLength` letters. -/
def IsJobWrite (total : Nat) (op : WriteOp) : Prop :=
  (∃ i, i < total ∧ op.path = filepathJoin tmpPath (sprintfFileName i))
    ∧ (op.content.length : Int) = contentLength ∧ ∀ c ∈ op.content.data, c ∈ letters

/-- The invariant of the pipeline. -/
structure Inv (total numberOfWorkers : Nat) (s : State) : Prop where
  /-- every job name is in exactly one place: still to be sent, held by a
  worker, or received -/
  names : ∀ x : String,
    (jobNames s.chIn).count x + sumW (heldCount x) s.workers
      + (s.received.map FileInfo.FileName).count x = (allNames total).count x
  spawned : s.workers.length ≤ numberOfWorkers
  wgCount : s.wg + (sumW Worker.doneBit s.workers : Int) = (numberOfWorkers : Int)
  waitedWg : s.waited = true → s.wg = 0
  closedWaited : s.outClosed = true → s.waited = true
  finishedClosed : s.finished = true → s.outClosed = true
  srcOpen : s.inClosed = false → ∃ js : List FileInfo, s.chIn = js.map ChanOp.send ++ [ChanOp.close]
  srcClosed : s.inClosed = true → s.chIn = []
  srcJobs : ∀ v, ChanOp.send v ∈ s.chIn → ∃ i, i < total ∧ v = mkJob i
  leftLoop : ∀ w ∈ s.workers, (w = Worker.exited ∨ w = Worker.done) → s.inClosed = true
  noPanic : s.panicked = false
  aggFold : s.agg = if s.finished then drainResults s.received
    else s.received.foldl aggStep aggInit
  results : ∀ r ∈ s.received, IsResult total numberOfWorkers r
  held : ∀ (w : Nat) (st : Worker), s.workers[w]? = some st → st.WellFormed total w
  writesCount : ∀ p : String,
    (s.writes.map WriteOp.path).count p = sumW (writtenCount p) s.workers
      + (s.received.map (fun r => filepathJoin tmpPath r.FileName)).count p
  writesForm : ∀ op ∈ s.writes, IsJobWrite total op

/-- All values the job source has still to send. -/
def pendingJobs : List ChanOp → List FileInfo
  | [] => []
  | ChanOp.send v :: ops => v :: pendingJobs ops
  | ChanOp.close :: ops => pendingJobs ops

/-- The invariant of `createFiles(chIn, 0)`: nothing is ever dispatched, taken,
written or received. -/
structure ZeroInv (chIn : List ChanOp) (s : State) : Prop where
  noWorkers : s.workers = []
  noResults : s.received = []
  noWrites : s.writes = []
  jobsKept : pendingJobs s.chIn = pendingJobs chIn
  blocked : ∀ job rest, chIn = ChanOp.send job :: rest → s.chIn = chIn
  aggIdle : s.agg = if s.finished then aggFinish aggInit else aggInit

/-! ## A concrete run -/

/-- A schedule of a run with two files and two workers: both workers take a job,
the write of worker 0 fails, both results are delivered, and every goroutine
runs to its end. -/
def sampleSchedule : List Action :=
  [Action.spawn, Action.take 0, Action.spawn, Action.take 1,
   Action.work 1 (fun k => 7 * k) none, Action.work 0 (fun k => k) (some "disk full"),
   Action.emit 0, Action.closeIn, Action.inputClosed 0, Action.emit 1, Action.inputClosed 1,
   Action.done 1, Action.done 0, Action.waitReturn, Action.closeOut, Action.drainEnd]

/-- The state `sampleSchedule` ends in. -/
def sampleFinal : State :=
  (generateFiles 2 2 ⟨none, none⟩ sampleSchedule).getD (createFiles [] 0)

/-- A setup in which `os.MkdirAll` fails. -/
def failedSetup : SetupOutcome :=
  { removeAllErr := none, mkdirAllErr := some "mkdir random-files: permission denied" }

/-- The start of a run with one worker: the worker is dispatched, takes job 0
and attempts the write. -/
def firstWriteSchedule : List Action :=
  [Action.spawn, Action.take 0,
   Action.work 0 (fun _ => 0) (some "open random-files/file-0.txt: no such file or directory")]

/-- A complete schedule of a run with one file and one worker in which the
write fails. -/
def failedRunSchedule : List Action :=
  firstWriteSchedule ++
    [Action.emit 0, Action.closeIn, Action.inputClosed 0, Action.done 0,
     Action.waitReturn, Action.closeOut, Action.drainEnd]

/-- The state `failedRunSchedule` ends in after a failed setup. -/
def failedRunFinal : State :=
  (generateFiles 1 1 failedSetup failedRunSchedule).getD (createFiles [] 0)

/-- The state of `createFiles(generateFileIndexes(), 0)` after the supervisor
has closed `chOut` and the draining loop has ended. -/
def zeroFinal : State :=
  { createFiles (generateFileIndexes totalFile) 0 with
    waited := true, outClosed := true, finished := true,
    agg := { counterTotal := 0, counterSuccess := 0, log := ["0/0 of total files created"] } }

/-- Five results of which the one for `file-3.txt` carries an error. -/
def fiveResults : List FileInfo :=
  (List.range 5).map (fun i =>
    mkResult 0 (mkJob i) (if i = 3 then some "permission denied" else none))

/-- A state in which worker 0 holds job 0 and has not yet run lines 113-116. -/
def holdingState : State :=
  { createFiles [ChanOp.close] 1 with workers := [Worker.working (mkJob 0)] }

/-! ## Specification-side notions -/

/-- The number a list of decimal digit characters denotes. -/
def decimalValue (ds : List Char) : Nat :=
  ds.foldl (fun acc c => 10 * acc + (c.toNat - 48)) 0

/-- The error lines the specification asks for: one per result carrying an
error, naming its file, in arrival order. -/
def expectedErrorLines (rs : List FileInfo) : List String :=
  rs.filterMap (fun r => r.Err.map (fun e => errorLine r.FileName e))

/-- Number of results without an error. -/
def successCount (rs : List FileInfo) : Nat :=
  (rs.filter (fun r => r.Err.isNone)).length

/-! ## Decimal notation -/

theorem digitChar_value (k : Nat) (hk : k < 10) : (Nat.digitChar k).toNat - 48 = k := by
  interval_cases k <;> rfl

theorem digitChar_isDigit (k : Nat) (hk : k < 10) : (Nat.digitChar k).isDigit = true := by
  interval_cases k <;> rfl

theorem toDigitsCore_acc (fuel : Nat) : ∀ (n : Nat) (ds : List Char),
    Nat.toDigitsCore 10 fuel n ds = Nat.toDigitsCore 10 fuel n [] ++ ds := by
  induction fuel with
  | zero => intro n ds; simp [Nat.toDigitsCore]
  | succ fuel ih =>
    intro n ds
    simp only [Nat.toDigitsCore]
    by_cases h : n / 10 = 0
    · simp [h]
    · simp only [h, if_false]
      rw [ih (n / 10) (Nat.digitChar (n % 10) :: ds), ih (n / 10) [Nat.digitChar (n % 10)]]
      simp

theorem decimalValue_snoc (ds : List Char) (c : Char) :
    decimalValue (ds ++ [c]) = 10 * decimalValue ds + (c.toNat - 48) := by
  simp [decimalValue, List.foldl_append]

theorem decimalValue_toDigitsCore (fuel : Nat) : ∀ n : Nat, n < fuel →
    decimalValue (Nat.toDigitsCore 10 fuel n []) = n := by
  induction fuel with
  | zero => intro n h; omega
  | succ fuel ih =>
    intro n hn
    simp only [Nat.toDigitsCore]
    by_cases h : n / 10 = 0
    · have hlt : n % 10 < 10 := Nat.mod_lt _ (by decide)
      simp only [h, if_true]
      have := digitChar_value (n % 10) hlt
      simp only [decimalValue, List.foldl]
      omega
    · simp only [h, if_false]
      rw [toDigitsCore_acc, decimalValue_snoc, ih (n / 10) (by omega),
        digitChar_value (n % 10) (Nat.mod_lt _ (by decide))]
      omega

theorem isDigit_toDigitsCore (fuel : Nat) : ∀ (n : Nat) (c : Char),
    c ∈ Nat.toDigitsCore 10 fuel n [] → c.isDigit = true := by
  induction fuel with
  | zero => intro n c h; simp [Nat.toDigitsCore] at h
  | succ fuel ih =>
    intro n c hc
    simp only [Nat.toDigitsCore] at hc
    have hd := digitChar_isDigit (n % 10) (Nat.mod_lt _ (by decide))
    by_cases h : n / 10 = 0
    · simp only [h, if_true, List.mem_singleton] at hc
      rw [hc]; exact hd
    · simp only [h, if_false] at hc
      rw [toDigitsCore_acc] at hc
      rcases List.mem_append.mp hc with h1 | h1
      · exact ih _ _ h1
      · rw [List.mem_singleton.mp h1]; exact hd

theorem decimalValue_repr (n : Nat) : decimalValue (Nat.repr n).data = n := by
  show decimalValue (Nat.toDigitsCore 10 (n + 1) n []) = n
  exact decimalValue_toDigitsCore (n + 1) n (Nat.lt_succ_self n)

theorem isDigit_repr (n : Nat) (c : Char) (hc : c ∈ (Nat.repr n).data) : c.isDigit = true :=
  isDigit_toDigitsCore (n + 1) n c hc

theorem repr_injective (i j : Nat) (h : Nat.repr i = Nat.repr j) : i = j := by
  have := congrArg (fun s : String => decimalValue s.data) h
  simpa [decimalValue_repr] using this

theorem sprintfFileName_data (i : Nat) :
    (sprintfFileName i).data = "file-".data ++ ((Nat.repr i).data ++ ".txt".data) := by
  show (("file-" ++ Nat.repr i) ++ ".txt").data = _
  rw [String.data_append, String.data_append, List.append_assoc]

theorem sprintfFileName_injective (i j : Nat) (h : sprintfFileName i = sprintfFileName j) :
    i = j := by
  have hd := congrArg String.data h
  rw [sprintfFileName_data, sprintfFileName_data] at hd
  have h1 := List.append_cancel_left hd
  have h2 := List.append_cancel_right h1
  exact repr_injective i j (String.ext h2)

/-! ## The job source -/

theorem generateFileIndexesFrom_eq (todo : Nat) : ∀ i : Nat,
    generateFileIndexesFrom i todo
      = (List.range' i todo).map (fun k => ChanOp.send (mkJob k)) ++ [ChanOp.close] := by
  induction todo with
  | zero => intro i; rfl
  | succ todo ih =>
    intro i
    simp [generateFileIndexesFrom, ih (i + 1), List.range'_succ]

/-! ## `randomString` -/

theorem letters_length : letters.length = 52 := by decide

theorem letters_isAlpha (c : Char) (hc : c ∈ letters) : c.isAlpha = true := by
  revert c
  decide

theorem intn_letters (raw : Nat) : intn letters.length raw = some (raw % 52) := by
  simp [intn, letters_length]

theorem letters_get?_mod (raw : Nat) :
    ∃ r, letters.get? (raw % 52) = some r ∧ r ∈ letters := by
  have hlt : raw % 52 < letters.length := by
    rw [letters_length]; exact Nat.mod_lt _ (by decide)
  exact ⟨letters.get ⟨raw % 52, hlt⟩, List.get?_eq_get hlt, List.get_mem _ _ _⟩

theorem randomStringLoop_spec (src : Nat → Nat) (todo : Nat) :
    ∀ (i : Nat) (filled rest : List Char), filled.length = i → rest.length = todo →
      ∃ picked, randomStringLoop src todo i (filled ++ rest) = some (filled ++ picked)
        ∧ picked.length = todo ∧ ∀ c ∈ picked, c ∈ letters := by
  induction todo with
  | zero =>
    intro i filled rest _ hrest
    have : rest = [] := List.length_eq_zero.mp hrest
    subst this
    exact ⟨[], by simp [randomStringLoop], rfl, by simp⟩
  | succ todo ih =>
    intro i filled rest hfilled hrest
    obtain ⟨z, rest', rfl⟩ : ∃ z rest', rest = z :: rest' := by
      cases rest with
      | nil => simp at hrest
      | cons z rest' => exact ⟨z, rest', rfl⟩
    obtain ⟨r, hr, hmem⟩ := letters_get?_mod (src i)
    have hset : (filled ++ z :: rest').set i r = (filled ++ [r]) ++ rest' := by
      subst hfilled
      simp [List.set_append]
    obtain ⟨picked, hrun, hlen, hall⟩ :=
      ih (i + 1) (filled ++ [r]) rest' (by simp [hfilled]) (by simpa using hrest)
    refine ⟨r :: picked, ?_, by simp [hlen], ?_⟩
    · simp only [randomStringLoop, intn_letters, hr, hset, hrun]
      simp
    · intro c hc
      rcases List.mem_cons.mp hc with h | h
      · rw [h]; exact hmem
      · exact hall c h

theorem makeRunes_some (length : Int) (hlen : 0 ≤ length) (hmax : 4 * length ≤ 2 ^ 48) :
    makeRunes length = some (List.replicate length.toNat (Char.ofNat 0)) := by
  have hcond : ¬ (length < 0 ∨ (maxAlloc : Int) < (runeSize : Int) * length) := by
    simp only [maxAlloc, runeSize]
    push_cast
    omega
  simp only [makeRunes, hcond, if_false]

theorem makeRunes_none (length : Int) (hbig : 2 ^ 48 < 4 * length) : makeRunes length = none := by
  have hcond : length < 0 ∨ (maxAlloc : Int) < (runeSize : Int) * length := by
    right
    simp only [maxAlloc, runeSize]
    push_cast
    omega
  simp only [makeRunes, hcond, if_true]

theorem randomString_spec (length : Int) (src : Nat → Nat) (hlen : 0 ≤ length)
    (hmax : 4 * length ≤ 2 ^ 48) :
    ∃ s, randomString length src = some s ∧ (s.length : Int) = length
      ∧ ∀ c ∈ s.data, c ∈ letters := by
  obtain ⟨picked, hrun, hl, hall⟩ :=
    randomStringLoop_spec src length.toNat 0 [] (List.replicate length.toNat (Char.ofNat 0))
      rfl (by simp)
  refine ⟨String.mk picked, ?_, ?_, hall⟩
  · simp only [List.nil_append] at hrun
    simp only [randomString, makeRunes_some length hlen hmax, hrun]
    rfl
  · show ((picked.length : Nat) : Int) = length
    rw [hl]; omega

/-! ## The aggregation loop -/

theorem foldl_aggStep_counterTotal (rs : List FileInfo) : ∀ st : AggState,
    (rs.foldl aggStep st).counterTotal = st.counterTotal + (rs.length : Int) := by
  induction rs with
  | nil => intro st; simp
  | cons r rs ih =>
    intro st
    rw [List.foldl_cons, ih]
    cases hr : r.Err <;> simp [aggStep, hr] <;> omega

theorem foldl_aggStep_counterSuccess (rs : List FileInfo) : ∀ st : AggState,
    (rs.foldl aggStep st).counterSuccess = st.counterSuccess + (successCount rs : Int) := by
  induction rs with
  | nil => intro st; simp [successCount]
  | cons r rs ih =>
    intro st
    rw [List.foldl_cons, ih]
    cases hr : r.Err with
    | none =>
      simp [aggStep, hr, successCount, List.filter_cons]
      omega
    | some e => simp [aggStep, hr, successCount, List.filter_cons]

theorem foldl_aggStep_log (rs : List FileInfo) : ∀ st : AggState,
    (rs.foldl aggStep st).log = st.log ++ expectedErrorLines rs := by
  induction rs with
  | nil => intro st; simp [expectedErrorLines]
  | cons r rs ih =>
    intro st
    rw [List.foldl_cons, ih]
    cases hr : r.Err <;> simp [aggStep, hr, expectedErrorLines, List.filterMap_cons]

theorem successCount_le (rs : List FileInfo) : successCount rs ≤ rs.length :=
  List.length_filter_le _ _

/-! ## Paths -/

theorem splitSep_of_not_mem (b : List Char) (hb : '/' ∉ b) : splitSep b = [b] := by
  induction b with
  | nil => rfl
  | cons c cs ih =>
    have hc : c ≠ '/' := fun h => hb (by simp [h])
    have hcs : '/' ∉ cs := fun h => hb (List.mem_cons_of_mem _ h)
    simp [splitSep, hc, ih hcs]

theorem splitSep_append (a b : List Char) (ha : '/' ∉ a) :
    splitSep (a ++ '/' :: b) = a :: splitSep b := by
  induction a with
  | nil => simp [splitSep]
  | cons c cs ih =>
    have hc : c ≠ '/' := fun h => ha (by simp [h])
    have hcs : '/' ∉ cs := fun h => ha (List.mem_cons_of_mem _ h)
    simp [splitSep, hc, ih hcs]

theorem filepathJoin_tmpPath (name : String) (hsep : '/' ∉ name.data)
    (h0 : name.data ≠ []) (h1 : name.data ≠ ['.']) (h2 : name.data ≠ ['.', '.']) :
    filepathJoin tmpPath name = tmpPath ++ "/" ++ name := by
  have hdata : (tmpPath ++ "/" ++ name).data = tmpPath.data ++ '/' :: name.data := by
    rw [String.data_append, String.data_append, List.append_assoc]; rfl
  have hne : tmpPath ++ "/" ++ name ≠ "" := by
    intro h
    have := congrArg String.data h
    rw [hdata] at this
    simp [tmpPath] at this
  have htmp : tmpPath ≠ "" := by decide
  have hsplit : splitSep (tmpPath.data ++ '/' :: name.data) = [tmpPath.data, name.data] := by
    rw [splitSep_append _ _ (by decide), splitSep_of_not_mem _ hsep]
  have hclean : cleanElems false [tmpPath.data, name.data] [] = [tmpPath.data, name.data] := by
    have t0 : ¬ (tmpPath.data = [] ∨ tmpPath.data = ['.']) := by decide
    have t2 : ¬ tmpPath.data = ['.', '.'] := by decide
    have n0 : ¬ (name.data = [] ∨ name.data = ['.']) := by
      rintro (h | h)
      · exact h0 h
      · exact h1 h
    simp [cleanElems, t0, t2, n0, h2]
  have hr : decide ((tmpPath.data ++ '/' :: name.data).head? = some '/') = false := by
    simp [tmpPath]
  unfold filepathJoin filepathClean
  simp only [htmp, ne_eq, not_false_eq_true, if_true, hne, if_false, hdata, hr, hsplit, hclean,
    joinElems]
  apply String.ext
  simp [tmpPath]

theorem sprintfFileName_plain (i : Nat) :
    '/' ∉ (sprintfFileName i).data ∧ (sprintfFileName i).data ≠ []
      ∧ (sprintfFileName i).data ≠ ['.'] ∧ (sprintfFileName i).data ≠ ['.', '.'] := by
  rw [sprintfFileName_data]
  refine ⟨?_, ?_, ?_, ?_⟩
  · intro h
    rcases List.mem_append.mp h with h | h
    · revert h; decide
    · rcases List.mem_append.mp h with h | h
      · have := isDigit_repr i _ h
        revert this; decide
      · revert h; decide
  · simp
  · intro h; simp at h
  · intro h; simp at h

theorem filepathJoin_sprintfFileName (i : Nat) :
    filepathJoin tmpPath (sprintfFileName i) = "random-files/file-" ++ Nat.repr i ++ ".txt" := by
  obtain ⟨h, h0, h1, h2⟩ := sprintfFileName_plain i
  rw [filepathJoin_tmpPath _ h h0 h1 h2]
  apply String.ext
  rw [String.data_append, sprintfFileName_data]
  simp [tmpPath, String.data_append]

theorem filepathJoin_injective (i j : Nat)
    (h : filepathJoin tmpPath (sprintfFileName i) = filepathJoin tmpPath (sprintfFileName j)) :
    i = j := by
  rw [filepathJoin_sprintfFileName, filepathJoin_sprintfFileName] at h
  have hd := congrArg String.data h
  simp only [String.data_append] at hd
  have h1 := List.append_cancel_right hd
  have h2 := List.append_cancel_left h1
  exact repr_injective i j (String.ext h2)

theorem letters_utf8Size : ∀ c ∈ letters, c.utf8Size = 1 := by decide

theorem utf8ByteSize_letters (s : String) (h : ∀ c ∈ s.data, c ∈ letters) :
    s.utf8ByteSize = s.length := by
  obtain ⟨cs⟩ := s
  show String.utf8Len cs = cs.length
  induction cs with
  | nil => rfl
  | cons c cs ih =>
    have hc : c.utf8Size = 1 := letters_utf8Size c (h c (by simp))
    have ih' := ih (fun c hc => h c (List.mem_cons_of_mem _ hc))
    simp [hc, ih']

/-! ## The transition system: inversion of `step` -/

theorem workerWrite_some (job : FileInfo) (src : Nat → Nat) :
    ∃ content, workerWrite job src
        = some { path := filepathJoin tmpPath job.FileName, content := content }
      ∧ (content.length : Int) = contentLength ∧ ∀ c ∈ content.data, c ∈ letters := by
  obtain ⟨content, hrun, hlen, hall⟩ :=
    randomString_spec contentLength src (by decide) (by norm_num [contentLength])
  exact ⟨content, by simp [workerWrite, hrun], hlen, hall⟩

theorem step_noPanic {n : Nat} {s s' : State} {a : Action} (h : step n s a = some s') :
    s.panicked = false := by
  cases hp : s.panicked with
  | false => rfl
  | true => cases a <;> simp [step, hp] at h

theorem step_spawn {n : Nat} {s s' : State} (h : step n s Action.spawn = some s') :
    s.workers.length < n ∧ s' = { s with workers := s.workers ++ [Worker.idle] } := by
  have hp := step_noPanic h
  obtain ⟨chIn, inClosed, workers, wg, waited, outClosed, agg, finished, received, writes,
    progress, panicked⟩ := s
  simp only at hp
  subst hp
  simp only [step, Bool.false_eq_true, if_false] at h
  split at h
  · rename_i hl
    exact ⟨hl, (Option.some.inj h).symm⟩
  · cases h

theorem step_take {n : Nat} {s s' : State} {w : Nat} (h : step n s (Action.take w) = some s') :
    ∃ job rest, s.workers[w]? = some Worker.idle ∧ s.chIn = ChanOp.send job :: rest
      ∧ s' = { s with chIn := rest, workers := s.workers.set w (Worker.working job) } := by
  have hp := step_noPanic h
  obtain ⟨chIn, inClosed, workers, wg, waited, outClosed, agg, finished, received, writes,
    progress, panicked⟩ := s
  simp only at hp
  subst hp
  simp only [step, Bool.false_eq_true, if_false, List.get?_eq_getElem?] at h
  split at h
  · rename_i job rest hw
    exact ⟨job, rest, hw, rfl, (Option.some.inj h).symm⟩
  · cases h

theorem step_work {n : Nat} {s s' : State} {w : Nat} {src : Nat → Nat} {err : Option String}
    (h : step n s (Action.work w src err) = some s') :
    ∃ job content, s.workers[w]? = some (Worker.working job)
      ∧ (content.length : Int) = contentLength ∧ (∀ c ∈ content.data, c ∈ letters)
      ∧ s' = { s with
          writes := s.writes ++ [{ path := filepathJoin tmpPath job.FileName, content := content }],
          progress := s.progress ++ [progressLine w job.FileName],
          workers := s.workers.set w (Worker.sending (mkResult w job err)) } := by
  have hp := step_noPanic h
  obtain ⟨chIn, inClosed, workers, wg, waited, outClosed, agg, finished, received, writes,
    progress, panicked⟩ := s
  simp only at hp
  subst hp
  simp only [step, Bool.false_eq_true, if_false, List.get?_eq_getElem?] at h
  split at h
  · rename_i job hw
    obtain ⟨content, hwr, hlen, hall⟩ := workerWrite_some job src
    rw [hwr] at h
    exact ⟨job, content, hw, hlen, hall, (Option.some.inj h).symm⟩
  · cases h

theorem step_emit {n : Nat} {s s' : State} {w : Nat} (h : step n s (Action.emit w) = some s') :
    ∃ r, s.workers[w]? = some (Worker.sending r)
      ∧ ((s.outClosed = true ∧ s' = { s with panicked := true })
        ∨ (s.outClosed = false ∧ s.finished = false
          ∧ s' = { s with workers := s.workers.set w Worker.idle, agg := aggStep s.agg r,
                          received := s.received ++ [r] })) := by
  have hp := step_noPanic h
  obtain ⟨chIn, inClosed, workers, wg, waited, outClosed, agg, finished, received, writes,
    progress, panicked⟩ := s
  simp only at hp
  subst hp
  simp only [step, Bool.false_eq_true, if_false, List.get?_eq_getElem?] at h
  split at h
  · rename_i r hw
    refine ⟨r, hw, ?_⟩
    split at h
    · rename_i hc
      exact Or.inl ⟨hc, (Option.some.inj h).symm⟩
    · rename_i hc
      split at h
      · cases h
      · rename_i hf
        exact Or.inr ⟨by simpa using hc, by simpa using hf, (Option.some.inj h).symm⟩
  · cases h

theorem step_inputClosed {n : Nat} {s s' : State} {w : Nat}
    (h : step n s (Action.inputClosed w) = some s') :
    s.workers[w]? = some Worker.idle ∧ s.inClosed = true
      ∧ s' = { s with workers := s.workers.set w Worker.exited } := by
  have hp := step_noPanic h
  obtain ⟨chIn, inClosed, workers, wg, waited, outClosed, agg, finished, received, writes,
    progress, panicked⟩ := s
  simp only at hp
  subst hp
  simp only [step, Bool.false_eq_true, if_false, List.get?_eq_getElem?] at h
  split at h
  · rename_i hw
    split at h
    · rename_i hc
      exact ⟨hw, hc, (Option.some.inj h).symm⟩
    · cases h
  · cases h

theorem step_done {n : Nat} {s s' : State} {w : Nat} (h : step n s (Action.done w) = some s') :
    s.workers[w]? = some Worker.exited
      ∧ ((s.wg - 1 < 0 ∧ s' = { s with panicked := true })
        ∨ (0 ≤ s.wg - 1
          ∧ s' = { s with wg := s.wg - 1, workers := s.workers.set w Worker.done })) := by
  have hp := step_noPanic h
  obtain ⟨chIn, inClosed, workers, wg, waited, outClosed, agg, finished, received, writes,
    progress, panicked⟩ := s
  simp only at hp
  subst hp
  simp only [step, Bool.false_eq_true, if_false, List.get?_eq_getElem?] at h
  split at h
  · rename_i hw
    refine ⟨hw, ?_⟩
    split at h
    · rename_i hneg
      exact Or.inl ⟨hneg, (Option.some.inj h).symm⟩
    · rename_i hneg
      exact Or.inr ⟨by simp only at hneg ⊢; omega, (Option.some.inj h).symm⟩
  · cases h

theorem step_closeIn {n : Nat} {s s' : State} (h : step n s Action.closeIn = some s') :
    ∃ rest, s.chIn = ChanOp.close :: rest
      ∧ ((s.inClosed = true ∧ s' = { s with panicked := true })
        ∨ (s.inClosed = false ∧ s' = { s with chIn := rest, inClosed := true })) := by
  have hp := step_noPanic h
  obtain ⟨chIn, inClosed, workers, wg, waited, outClosed, agg, finished, received, writes,
    progress, panicked⟩ := s
  simp only at hp
  subst hp
  simp only [step, Bool.false_eq_true, if_false] at h
  split at h
  · rename_i rest
    refine ⟨rest, rfl, ?_⟩
    split at h
    · rename_i hi
      exact Or.inl ⟨hi, (Option.some.inj h).symm⟩
    · rename_i hi
      exact Or.inr ⟨by simpa using hi, (Option.some.inj h).symm⟩
  · cases h

theorem step_waitReturn {n : Nat} {s s' : State} (h : step n s Action.waitReturn = some s') :
    s.waited = false ∧ s.wg = 0 ∧ s' = { s with waited := true } := by
  have hp := step_noPanic h
  obtain ⟨chIn, inClosed, workers, wg, waited, outClosed, agg, finished, received, writes,
    progress, panicked⟩ := s
  simp only at hp
  subst hp
  simp only [step, Bool.false_eq_true, if_false] at h
  split at h
  · rename_i hc
    exact ⟨hc.1, hc.2, (Option.some.inj h).symm⟩
  · cases h

theorem step_closeOut {n : Nat} {s s' : State} (h : step n s Action.closeOut = some s') :
    s.waited = true ∧ s.outClosed = false ∧ s' = { s with outClosed := true } := by
  have hp := step_noPanic h
  obtain ⟨chIn, inClosed, workers, wg, waited, outClosed, agg, finished, received, writes,
    progress, panicked⟩ := s
  simp only at hp
  subst hp
  simp only [step, Bool.false_eq_true, if_false] at h
  split at h
  · rename_i hc
    exact ⟨hc.1, hc.2, (Option.some.inj h).symm⟩
  · cases h

theorem step_drainEnd {n : Nat} {s s' : State} (h : step n s Action.drainEnd = some s') :
    s.outClosed = true ∧ s.finished = false
      ∧ s' = { s with finished := true, agg := aggFinish s.agg } := by
  have hp := step_noPanic h
  obtain ⟨chIn, inClosed, workers, wg, waited, outClosed, agg, finished, received, writes,
    progress, panicked⟩ := s
  simp only at hp
  subst hp
  simp only [step, Bool.false_eq_true, if_false] at h
  split at h
  · rename_i hc
    exact ⟨hc.1, hc.2, (Option.some.inj h).symm⟩
  · cases h

/-! ## Sums over the workers -/

theorem sumW_append (f : Worker → Nat) (ws vs : List Worker) :
    sumW f (ws ++ vs) = sumW f ws + sumW f vs := by
  induction ws with
  | nil => simp [sumW]
  | cons w ws ih => simp [sumW, ih]; omega

theorem sumW_set (f : Worker → Nat) (w' : Worker) : ∀ (ws : List Worker) (i : Nat) (w : Worker),
    ws[i]? = some w → sumW f (ws.set i w') + f w = sumW f ws + f w' := by
  intro ws
  induction ws with
  | nil => intro i w h; simp at h
  | cons v vs ih =>
    intro i w h
    cases i with
    | zero =>
      simp at h
      subst h
      simp [sumW]; omega
    | succ i =>
      simp at h
      have := ih i w (by simpa using h)
      simp [sumW]; omega

theorem sumW_eq_zero (f : Worker → Nat) (ws : List Worker) (h : ∀ w ∈ ws, f w = 0) :
    sumW f ws = 0 := by
  induction ws with
  | nil => rfl
  | cons w ws ih =>
    simp [sumW, h w (by simp), ih (fun v hv => h v (List.mem_cons_of_mem _ hv))]

theorem sumW_le_length (ws : List Worker) : sumW Worker.doneBit ws ≤ ws.length := by
  induction ws with
  | nil => simp [sumW]
  | cons w ws ih => cases w <;> simp [sumW, Worker.doneBit] <;> omega

theorem all_done_of_sumW (ws : List Worker) (h : sumW Worker.doneBit ws = ws.length) :
    ∀ w ∈ ws, w = Worker.done := by
  induction ws with
  | nil => simp
  | cons v vs ih =>
    have hle := sumW_le_length vs
    intro w hw
    cases v <;> simp [sumW, Worker.doneBit] at h <;> try omega
    rcases List.mem_cons.mp hw with h1 | h1
    · exact h1
    · exact ih (by omega) w h1

/-! ## The invariant holds initially and is preserved by every step -/

theorem jobNames_map_send (js : List FileInfo) :
    jobNames (js.map ChanOp.send ++ [ChanOp.close]) = js.map FileInfo.FileName := by
  induction js with
  | nil => rfl
  | cons j js ih => simp [jobNames, ih]

theorem generateFileIndexes_eq (total : Nat) :
    generateFileIndexes total
      = ((List.range total).map mkJob).map ChanOp.send ++ [ChanOp.close] := by
  rw [generateFileIndexes, generateFileIndexesFrom_eq, List.range_eq_range', List.map_map]
  rfl

theorem jobNames_generateFileIndexes (total : Nat) :
    jobNames (generateFileIndexes total) = allNames total := by
  rw [generateFileIndexes_eq, jobNames_map_send, List.map_map]
  rfl

theorem Inv_init (total n : Nat) : Inv total n (createFiles (generateFileIndexes total) n) where
  names := by
    intro x
    simp [createFiles, jobNames_generateFileIndexes, sumW]
  spawned := by simp [createFiles]
  wgCount := by simp [createFiles, sumW]
  waitedWg := by simp [createFiles]
  closedWaited := by simp [createFiles]
  finishedClosed := by simp [createFiles]
  srcOpen := fun _ => ⟨(List.range total).map mkJob, generateFileIndexes_eq total⟩
  srcClosed := by simp [createFiles]
  srcJobs := by
    intro v hv
    simp only [createFiles, generateFileIndexes_eq] at hv
    simp at hv
    obtain ⟨i, hi, rfl⟩ := hv
    exact ⟨i, hi, rfl⟩
  leftLoop := by simp [createFiles]
  noPanic := rfl
  aggFold := by simp [createFiles]
  results := by simp [createFiles]
  held := by simp [createFiles]
  writesCount := by simp [createFiles, sumW]
  writesForm := by simp [createFiles]

theorem Inv_spawn {total n : Nat} {s s' : State} (inv : Inv total n s)
    (h : step n s Action.spawn = some s') : Inv total n s' := by
  obtain ⟨hl, rfl⟩ := step_spawn h
  exact
    { names := by
        intro x
        have := inv.names x
        simp only [sumW_append, sumW, heldCount, Worker.held, List.count_nil]
        omega
      spawned := by simp only [List.length_append, List.length_singleton]; omega
      wgCount := by
        have := inv.wgCount
        simp only [sumW_append, sumW, Worker.doneBit]
        omega
      waitedWg := inv.waitedWg
      closedWaited := inv.closedWaited
      finishedClosed := inv.finishedClosed
      srcOpen := inv.srcOpen
      srcClosed := inv.srcClosed
      srcJobs := inv.srcJobs
      leftLoop := by
        intro w hw hx
        rcases List.mem_append.mp hw with h1 | h1
        · exact inv.leftLoop w h1 hx
        · rw [List.mem_singleton.mp h1] at hx
          rcases hx with hx | hx <;> cases hx
      noPanic := inv.noPanic
      aggFold := inv.aggFold
      results := inv.results
      held := by
        intro w st hw
        by_cases hlt : w < s.workers.length
        · rw [List.getElem?_append_left hlt] at hw
          exact inv.held w st hw
        · have hst : st ∈ [Worker.idle] := by
            rw [List.getElem?_append_right (by omega)] at hw
            exact List.getElem?_mem hw
          rw [List.mem_singleton.mp hst]
          trivial
      writesCount := by
        intro p
        have := inv.writesCount p
        simp only [sumW_append, sumW, writtenCount, Worker.written, List.count_nil]
        omega
      writesForm := inv.writesForm }

theorem Inv_take {total n : Nat} {s s' : State} {w : Nat} (inv : Inv total n s)
    (h : step n s (Action.take w) = some s') : Inv total n s' := by
  obtain ⟨job, rest, hw, hc, rfl⟩ := step_take h
  have hjob : ∃ i, i < total ∧ job = mkJob i := inv.srcJobs job (by rw [hc]; simp)
  exact
    { names := by
        intro x
        have h1 := inv.names x
        have h2 := sumW_set (heldCount x) (Worker.working job) s.workers w _ hw
        rw [hc] at h1
        simp only [jobNames, heldCount, Worker.held, List.count_nil, List.count_cons] at h1 h2 ⊢
        omega
      spawned := by simp only [List.length_set]; exact inv.spawned
      wgCount := by
        have h1 := inv.wgCount
        have h2 := sumW_set Worker.doneBit (Worker.working job) s.workers w _ hw
        simp only [Worker.doneBit] at h2 ⊢
        omega
      waitedWg := inv.waitedWg
      closedWaited := inv.closedWaited
      finishedClosed := inv.finishedClosed
      srcOpen := by
        intro hi
        obtain ⟨js, hjs⟩ := inv.srcOpen hi
        rw [hc] at hjs
        cases js with
        | nil => simp at hjs
        | cons j js =>
          simp only [List.map_cons, List.cons_append, List.cons.injEq] at hjs
          exact ⟨js, hjs.2⟩
      srcClosed := by
        intro hi
        have := inv.srcClosed hi
        rw [hc] at this
        cases this
      srcJobs := by
        intro v hv
        exact inv.srcJobs v (by rw [hc]; exact List.mem_cons_of_mem _ hv)
      leftLoop := by
        intro v hv hx
        rcases List.mem_or_eq_of_mem_set hv with h1 | h1
        · exact inv.leftLoop v h1 hx
        · rw [h1] at hx
          rcases hx with hx | hx <;> cases hx
      noPanic := inv.noPanic
      aggFold := inv.aggFold
      results := inv.results
      held := by
        intro k st hk
        simp only [List.getElem?_set] at hk
        split at hk
        · split at hk
          · cases hk
            exact hjob
          · cases hk
        · exact inv.held k st hk
      writesCount := by
        intro p
        have h1 := inv.writesCount p
        have h2 := sumW_set (writtenCount p) (Worker.working job) s.workers w _ hw
        simp only [writtenCount, Worker.written, List.count_nil] at h2 ⊢
        omega
      writesForm := inv.writesForm }

theorem sumW_doneBit_lt (ws : List Worker) (w : Nat) (st : Worker) (hw : ws[w]? = some st)
    (hst : st.doneBit = 0) : sumW Worker.doneBit ws < ws.length := by
  have h1 := sumW_set Worker.doneBit Worker.done ws w st hw
  have h2 := sumW_le_length (ws.set w Worker.done)
  have h3 : Worker.doneBit Worker.done = 1 := rfl
  rw [hst, h3] at h1
  rw [List.length_set] at h2
  omega

theorem Inv.workers_done_of_wg {total n : Nat} {s : State} (inv : Inv total n s) (hwg : s.wg = 0) :
    s.workers.length = n ∧ ∀ w ∈ s.workers, w = Worker.done := by
  have h1 := inv.wgCount
  have h2 := sumW_le_length s.workers
  have h3 := inv.spawned
  have h4 : sumW Worker.doneBit s.workers = s.workers.length := by omega
  exact ⟨by omega, all_done_of_sumW s.workers h4⟩

theorem Inv.workers_done_of_closed {total n : Nat} {s : State} (inv : Inv total n s)
    (hc : s.outClosed = true) : s.workers.length = n ∧ ∀ w ∈ s.workers, w = Worker.done :=
  inv.workers_done_of_wg (inv.waitedWg (inv.closedWaited hc))

theorem Inv_work {total n : Nat} {s s' : State} {w : Nat} {src : Nat → Nat}
    {err : Option String} (inv : Inv total n s)
    (h : step n s (Action.work w src err) = some s') : Inv total n s' := by
  obtain ⟨job, content, hw, hlen, hall, rfl⟩ := step_work h
  have hjob : ∃ i, i < total ∧ job = mkJob i := inv.held w _ hw
  exact
    { names := by
        intro x
        have h1 := inv.names x
        have h2 := sumW_set (heldCount x) (Worker.sending (mkResult w job err)) s.workers w _ hw
        simp only [heldCount, Worker.held, mkResult] at h1 h2 ⊢
        omega
      spawned := by simp only [List.length_set]; exact inv.spawned
      wgCount := by
        have h1 := inv.wgCount
        have h2 := sumW_set Worker.doneBit (Worker.sending (mkResult w job err)) s.workers w _ hw
        simp only [Worker.doneBit] at h2 ⊢
        omega
      waitedWg := inv.waitedWg
      closedWaited := inv.closedWaited
      finishedClosed := inv.finishedClosed
      srcOpen := inv.srcOpen
      srcClosed := inv.srcClosed
      srcJobs := inv.srcJobs
      leftLoop := by
        intro v hv hx
        rcases List.mem_or_eq_of_mem_set hv with h1 | h1
        · exact inv.leftLoop v h1 hx
        · rw [h1] at hx
          rcases hx with hx | hx <;> cases hx
      noPanic := inv.noPanic
      aggFold := inv.aggFold
      results := inv.results
      held := by
        intro k st hk
        simp only [List.getElem?_set] at hk
        split at hk
        · rename_i hwk
          subst hwk
          split at hk
          · cases hk
            obtain ⟨i, hi, rfl⟩ := hjob
            exact ⟨i, err, hi, rfl⟩
          · cases hk
        · exact inv.held k st hk
      writesCount := by
        intro p
        have h1 := inv.writesCount p
        have h2 := sumW_set (writtenCount p) (Worker.sending (mkResult w job err)) s.workers w _ hw
        simp only [writtenCount, Worker.written, mkResult, List.count_nil, List.map_append,
          List.map_cons, List.map_nil, List.count_append] at h1 h2 ⊢
        omega
      writesForm := by
        intro op hop
        rcases List.mem_append.mp hop with h1 | h1
        · exact inv.writesForm op h1
        · rw [List.mem_singleton.mp h1]
          obtain ⟨i, hi, rfl⟩ := hjob
          exact ⟨⟨i, hi, rfl⟩, hlen, hall⟩ }

theorem Inv_emit {total n : Nat} {s s' : State} {w : Nat} (inv : Inv total n s)
    (h : step n s (Action.emit w) = some s') : Inv total n s' := by
  obtain ⟨r, hw, hcase⟩ := step_emit h
  have hmem : Worker.sending r ∈ s.workers := List.getElem?_mem hw
  rcases hcase with ⟨hc, _⟩ | ⟨hc, hf, rfl⟩
  · have := (inv.workers_done_of_closed hc).2 _ hmem
    cases this
  have hr : ∃ i err, i < total ∧ r = mkResult w (mkJob i) err := inv.held w _ hw
  have hwn : w < n := by
    have := (List.getElem?_eq_some.mp hw).1
    have := inv.spawned
    omega
  exact
    { names := by
        intro x
        have h1 := inv.names x
        have h2 := sumW_set (heldCount x) Worker.idle s.workers w _ hw
        simp only [heldCount, Worker.held, List.count_nil, List.map_append,
          List.map_cons, List.map_nil, List.count_append] at h1 h2 ⊢
        omega
      spawned := by simp only [List.length_set]; exact inv.spawned
      wgCount := by
        have h1 := inv.wgCount
        have h2 := sumW_set Worker.doneBit Worker.idle s.workers w _ hw
        simp only [Worker.doneBit] at h2 ⊢
        omega
      waitedWg := inv.waitedWg
      closedWaited := inv.closedWaited
      finishedClosed := inv.finishedClosed
      srcOpen := inv.srcOpen
      srcClosed := inv.srcClosed
      srcJobs := inv.srcJobs
      leftLoop := by
        intro v hv hx
        rcases List.mem_or_eq_of_mem_set hv with h1 | h1
        · exact inv.leftLoop v h1 hx
        · rw [h1] at hx
          rcases hx with hx | hx <;> cases hx
      noPanic := inv.noPanic
      aggFold := by
        have h1 := inv.aggFold
        simp only [hf, Bool.false_eq_true, if_false] at h1 ⊢
        rw [h1, List.foldl_append]
        rfl
      results := by
        intro r' hr'
        rcases List.mem_append.mp hr' with h1 | h1
        · exact inv.results r' h1
        · rw [List.mem_singleton.mp h1]
          obtain ⟨i, e, hi, rfl⟩ := hr
          exact ⟨w, i, e, hwn, hi, rfl⟩
      held := by
        intro k st hk
        simp only [List.getElem?_set] at hk
        split at hk
        · split at hk
          · cases hk
            trivial
          · cases hk
        · exact inv.held k st hk
      writesCount := by
        intro p
        have h1 := inv.writesCount p
        have h2 := sumW_set (writtenCount p) Worker.idle s.workers w _ hw
        simp only [writtenCount, Worker.written, List.count_nil, List.map_append,
          List.map_cons, List.map_nil, List.count_append] at h1 h2 ⊢
        omega
      writesForm := inv.writesForm }

theorem Inv_inputClosed {total n : Nat} {s s' : State} {w : Nat} (inv : Inv total n s)
    (h : step n s (Action.inputClosed w) = some s') : Inv total n s' := by
  obtain ⟨hw, hc, rfl⟩ := step_inputClosed h
  exact
    { names := by
        intro x
        have h1 := inv.names x
        have h2 := sumW_set (heldCount x) Worker.exited s.workers w _ hw
        simp only [heldCount, Worker.held] at h1 h2 ⊢
        omega
      spawned := by simp only [List.length_set]; exact inv.spawned
      wgCount := by
        have h1 := inv.wgCount
        have h2 := sumW_set Worker.doneBit Worker.exited s.workers w _ hw
        simp only [Worker.doneBit] at h2 ⊢
        omega
      waitedWg := inv.waitedWg
      closedWaited := inv.closedWaited
      finishedClosed := inv.finishedClosed
      srcOpen := inv.srcOpen
      srcClosed := inv.srcClosed
      srcJobs := inv.srcJobs
      leftLoop := fun _ _ _ => hc
      noPanic := inv.noPanic
      aggFold := inv.aggFold
      results := inv.results
      held := by
        intro k st hk
        simp only [List.getElem?_set] at hk
        split at hk
        · split at hk
          · cases hk
            trivial
          · cases hk
        · exact inv.held k st hk
      writesCount := by
        intro p
        have h1 := inv.writesCount p
        have h2 := sumW_set (writtenCount p) Worker.exited s.workers w _ hw
        simp only [writtenCount, Worker.written] at h1 h2 ⊢
        omega
      writesForm := inv.writesForm }

theorem Inv_done {total n : Nat} {s s' : State} {w : Nat} (inv : Inv total n s)
    (h : step n s (Action.done w) = some s') : Inv total n s' := by
  obtain ⟨hw, hcase⟩ := step_done h
  have hlt := sumW_doneBit_lt s.workers w _ hw rfl
  have hwg := inv.wgCount
  have hsp := inv.spawned
  rcases hcase with ⟨hneg, _⟩ | ⟨hpos, rfl⟩
  · omega
  have hin : s.inClosed = true := inv.leftLoop _ (List.getElem?_mem hw) (Or.inl rfl)
  exact
    { names := by
        intro x
        have h1 := inv.names x
        have h2 := sumW_set (heldCount x) Worker.done s.workers w _ hw
        simp only [heldCount, Worker.held] at h1 h2 ⊢
        omega
      spawned := by simp only [List.length_set]; exact inv.spawned
      wgCount := by
        have h2 := sumW_set Worker.doneBit Worker.done s.workers w _ hw
        simp only [Worker.doneBit] at h2 ⊢
        omega
      waitedWg := by
        intro hwt
        have := inv.waitedWg hwt
        simp only
        omega
      closedWaited := inv.closedWaited
      finishedClosed := inv.finishedClosed
      srcOpen := inv.srcOpen
      srcClosed := inv.srcClosed
      srcJobs := inv.srcJobs
      leftLoop := fun _ _ _ => hin
      noPanic := inv.noPanic
      aggFold := inv.aggFold
      results := inv.results
      held := by
        intro k st hk
        simp only [List.getElem?_set] at hk
        split at hk
        · split at hk
          · cases hk
            trivial
          · cases hk
        · exact inv.held k st hk
      writesCount := by
        intro p
        have h1 := inv.writesCount p
        have h2 := sumW_set (writtenCount p) Worker.done s.workers w _ hw
        simp only [writtenCount, Worker.written] at h1 h2 ⊢
        omega
      writesForm := inv.writesForm }

theorem Inv_closeIn {total n : Nat} {s s' : State} (inv : Inv total n s)
    (h : step n s Action.closeIn = some s') : Inv total n s' := by
  obtain ⟨rest, hc, hcase⟩ := step_closeIn h
  rcases hcase with ⟨hi, _⟩ | ⟨hi, rfl⟩
  · have := inv.srcClosed hi
    rw [hc] at this
    cases this
  have hrest : rest = [] := by
    obtain ⟨js, hjs⟩ := inv.srcOpen hi
    rw [hc] at hjs
    cases js with
    | nil => simpa using hjs
    | cons j js => simp at hjs
  exact
    { names := by
        intro x
        have h1 := inv.names x
        rw [hc] at h1
        simpa only [jobNames] using h1
      spawned := inv.spawned
      wgCount := inv.wgCount
      waitedWg := inv.waitedWg
      closedWaited := inv.closedWaited
      finishedClosed := inv.finishedClosed
      srcOpen := by intro hx; cases hx
      srcClosed := fun _ => hrest
      srcJobs := by
        intro v hv
        exact inv.srcJobs v (by rw [hc]; exact List.mem_cons_of_mem _ hv)
      leftLoop := fun _ _ _ => rfl
      noPanic := inv.noPanic
      aggFold := inv.aggFold
      results := inv.results
      held := inv.held
      writesCount := inv.writesCount
      writesForm := inv.writesForm }

theorem Inv_waitReturn {total n : Nat} {s s' : State} (inv : Inv total n s)
    (h : step n s Action.waitReturn = some s') : Inv total n s' := by
  obtain ⟨_, hwg, rfl⟩ := step_waitReturn h
  exact
    { names := inv.names
      spawned := inv.spawned
      wgCount := inv.wgCount
      waitedWg := fun _ => hwg
      closedWaited := fun _ => rfl
      finishedClosed := inv.finishedClosed
      srcOpen := inv.srcOpen
      srcClosed := inv.srcClosed
      srcJobs := inv.srcJobs
      leftLoop := inv.leftLoop
      noPanic := inv.noPanic
      aggFold := inv.aggFold
      results := inv.results
      held := inv.held
      writesCount := inv.writesCount
      writesForm := inv.writesForm }

theorem Inv_closeOut {total n : Nat} {s s' : State} (inv : Inv total n s)
    (h : step n s Action.closeOut = some s') : Inv total n s' := by
  obtain ⟨hwt, _, rfl⟩ := step_closeOut h
  exact
    { names := inv.names
      spawned := inv.spawned
      wgCount := inv.wgCount
      waitedWg := inv.waitedWg
      closedWaited := fun _ => hwt
      finishedClosed := fun hf => by
        have := inv.closedWaited (inv.finishedClosed hf)
        rfl
      srcOpen := inv.srcOpen
      srcClosed := inv.srcClosed
      srcJobs := inv.srcJobs
      leftLoop := inv.leftLoop
      noPanic := inv.noPanic
      aggFold := inv.aggFold
      results := inv.results
      held := inv.held
      writesCount := inv.writesCount
      writesForm := inv.writesForm }

theorem Inv_drainEnd {total n : Nat} {s s' : State} (inv : Inv total n s)
    (h : step n s Action.drainEnd = some s') : Inv total n s' := by
  obtain ⟨hc, hf, rfl⟩ := step_drainEnd h
  exact
    { names := inv.names
      spawned := inv.spawned
      wgCount := inv.wgCount
      waitedWg := inv.waitedWg
      closedWaited := inv.closedWaited
      finishedClosed := fun _ => hc
      srcOpen := inv.srcOpen
      srcClosed := inv.srcClosed
      srcJobs := inv.srcJobs
      leftLoop := inv.leftLoop
      noPanic := inv.noPanic
      aggFold := by
        have h1 := inv.aggFold
        simp only [hf, Bool.false_eq_true, if_false] at h1
        simp only [if_true, h1, drainResults]
      results := inv.results
      held := inv.held
      writesCount := inv.writesCount
      writesForm := inv.writesForm }

theorem Inv_step {total n : Nat} {s s' : State} {a : Action} (inv : Inv total n s)
    (h : step n s a = some s') : Inv total n s' := by
  cases a with
  | spawn => exact Inv_spawn inv h
  | take w => exact Inv_take inv h
  | work w src err => exact Inv_work inv h
  | emit w => exact Inv_emit inv h
  | inputClosed w => exact Inv_inputClosed inv h
  | done w => exact Inv_done inv h
  | closeIn => exact Inv_closeIn inv h
  | waitReturn => exact Inv_waitReturn inv h
  | closeOut => exact Inv_closeOut inv h
  | drainEnd => exact Inv_drainEnd inv h

theorem Inv_run {total n : Nat} (sched : List Action) : ∀ {s s' : State}, Inv total n s →
    run n s sched = some s' → Inv total n s' := by
  induction sched with
  | nil =>
    intro s s' inv h
    simp only [run, Option.some.injEq] at h
    exact h ▸ inv
  | cons a sched ih =>
    intro s s' inv h
    simp only [run] at h
    cases hs : step n s a with
    | none => rw [hs] at h; cases h
    | some s1 =>
      rw [hs] at h
      exact ih (Inv_step inv hs) h

/-! ## Termination and absence of deadlock -/

theorem measure_step {n : Nat} {s s' : State} {a : Action} (h : step n s a = some s') :
    measure n s' < measure n s := by
  have hp := step_noPanic h
  cases a with
  | spawn =>
    obtain ⟨hl, rfl⟩ := step_spawn h
    simp only [measure, sumW_append, sumW, Worker.weight, List.length_append,
      List.length_singleton]
    omega
  | take w =>
    obtain ⟨job, rest, hw, hc, rfl⟩ := step_take h
    have h2 := sumW_set Worker.weight (Worker.working job) s.workers w _ hw
    simp only [measure, hc, List.length_cons, List.length_set, Worker.weight] at h2 ⊢
    omega
  | work w src err =>
    obtain ⟨job, content, hw, _, _, rfl⟩ := step_work h
    have h2 := sumW_set Worker.weight (Worker.sending (mkResult w job err)) s.workers w _ hw
    simp only [measure, List.length_set, Worker.weight] at h2 ⊢
    omega
  | emit w =>
    obtain ⟨r, hw, hcase⟩ := step_emit h
    rcases hcase with ⟨_, rfl⟩ | ⟨_, _, rfl⟩
    · simp [measure, hp]
    · have h2 := sumW_set Worker.weight Worker.idle s.workers w _ hw
      simp only [measure, List.length_set, Worker.weight] at h2 ⊢
      omega
  | inputClosed w =>
    obtain ⟨hw, _, rfl⟩ := step_inputClosed h
    have h2 := sumW_set Worker.weight Worker.exited s.workers w _ hw
    simp only [measure, List.length_set, Worker.weight] at h2 ⊢
    omega
  | done w =>
    obtain ⟨hw, hcase⟩ := step_done h
    rcases hcase with ⟨_, rfl⟩ | ⟨_, rfl⟩
    · simp [measure, hp]
    · have h2 := sumW_set Worker.weight Worker.done s.workers w _ hw
      simp only [measure, List.length_set, Worker.weight] at h2 ⊢
      omega
  | closeIn =>
    obtain ⟨rest, hc, hcase⟩ := step_closeIn h
    rcases hcase with ⟨_, rfl⟩ | ⟨_, rfl⟩
    · simp [measure, hp]
    · simp only [measure, hc, List.length_cons]
      omega
  | waitReturn =>
    obtain ⟨hw, _, rfl⟩ := step_waitReturn h
    simp [measure, hw]
  | closeOut =>
    obtain ⟨_, hc, rfl⟩ := step_closeOut h
    simp [measure, hc]
  | drainEnd =>
    obtain ⟨_, hf, rfl⟩ := step_drainEnd h
    simp [measure, hf]

theorem sumW_doneBit_all (ws : List Worker) (h : ∀ w ∈ ws, w = Worker.done) :
    sumW Worker.doneBit ws = ws.length := by
  induction ws with
  | nil => rfl
  | cons w ws ih =>
    have hw := h w (by simp)
    subst hw
    simp [sumW, Worker.doneBit, ih (fun v hv => h v (List.mem_cons_of_mem _ hv))]
    omega

theorem progress {total n : Nat} {s : State} (inv : Inv total n s)
    (hf : s.finished = false) : ∃ a s', step n s a = some s' := by
  have hp := inv.noPanic
  by_cases hl : s.workers.length < n
  · exact ⟨Action.spawn, Option.isSome_iff_exists.mp (by
        simp [step, hp, Bool.false_eq_true, if_false, hl, if_true])⟩
  by_cases hall : ∀ w ∈ s.workers, w = Worker.done
  · have hwg : s.wg = 0 := by
      have h1 := inv.wgCount
      have h2 := sumW_doneBit_all s.workers hall
      have h3 := inv.spawned
      omega
    cases hwt : s.waited with
    | false =>
      exact ⟨Action.waitReturn, Option.isSome_iff_exists.mp (by
        simp [step, hp, Bool.false_eq_true, if_false, hwt, hwg, and_self, if_true])⟩
    | true =>
      cases hoc : s.outClosed with
      | false =>
        exact ⟨Action.closeOut, Option.isSome_iff_exists.mp (by
        simp [step, hp, Bool.false_eq_true, if_false, hwt, hoc, and_self, if_true])⟩
      | true =>
        exact ⟨Action.drainEnd, Option.isSome_iff_exists.mp (by
        simp [step, hp, Bool.false_eq_true, if_false, hf, hoc, and_self, if_true])⟩
  · obtain ⟨st, hmem, hne⟩ : ∃ st ∈ s.workers, st ≠ Worker.done := by
      by_contra hcon
      exact hall (fun w hw => by
        by_contra hx
        exact hcon ⟨w, hw, hx⟩)
    obtain ⟨k, hk⟩ := List.mem_iff_getElem?.mp hmem
    cases st with
    | idle =>
      cases hc : s.chIn with
      | nil =>
        have hin : s.inClosed = true := by
          cases hi : s.inClosed with
          | true => rfl
          | false =>
            obtain ⟨js, hjs⟩ := inv.srcOpen hi
            rw [hc] at hjs
            simp at hjs
        exact ⟨Action.inputClosed k, Option.isSome_iff_exists.mp (by
        simp [step, hp, Bool.false_eq_true, if_false, hk, hin, if_true])⟩
      | cons op rest =>
        cases op with
        | send job =>
          exact ⟨Action.take k, Option.isSome_iff_exists.mp (by
        simp [step, hp, Bool.false_eq_true, if_false, hk, hc])⟩
        | close =>
          cases hi : s.inClosed with
          | true =>
            exact ⟨Action.closeIn, Option.isSome_iff_exists.mp (by
        simp [step, hp, Bool.false_eq_true, if_false, hc, hi, if_true])⟩
          | false =>
            exact ⟨Action.closeIn, Option.isSome_iff_exists.mp (by
        simp [step, hp, Bool.false_eq_true, if_false, hc, hi])⟩
    | working job =>
      obtain ⟨content, hwr, _, _⟩ := workerWrite_some job (fun _ => 0)
      exact ⟨Action.work k (fun _ => 0) none, Option.isSome_iff_exists.mp (by
        simp [step, hp, Bool.false_eq_true, if_false, hk, hwr])⟩
    | sending r =>
      have hoc : s.outClosed = false := by
        cases hoc : s.outClosed with
        | false => rfl
        | true => exact absurd ((inv.workers_done_of_closed hoc).2 _ hmem) hne
      exact ⟨Action.emit k, Option.isSome_iff_exists.mp (by
        simp [step, hp, Bool.false_eq_true, if_false, hk, hoc, hf])⟩
    | exited =>
      have hwg : ¬ s.wg - 1 < 0 := by
        have h1 := sumW_doneBit_lt s.workers k _ hk rfl
        have h2 := inv.wgCount
        have h3 := inv.spawned
        omega
      exact ⟨Action.done k, Option.isSome_iff_exists.mp (by
        simp [step, hp, Bool.false_eq_true, if_false, hk, hwg])⟩
    | done => exact absurd rfl hne

theorem exists_completion {total n : Nat} (m : Nat) : ∀ s : State,
    measure n s ≤ m → Inv total n s →
      ∃ sched s', run n s sched = some s' ∧ s'.finished = true := by
  induction m with
  | zero =>
    intro s hm inv
    cases hf : s.finished with
    | true => exact ⟨[], s, rfl, hf⟩
    | false =>
      obtain ⟨a, s1, hs⟩ := progress inv hf
      have := measure_step hs
      omega
  | succ m ih =>
    intro s hm inv
    cases hf : s.finished with
    | true => exact ⟨[], s, rfl, hf⟩
    | false =>
      obtain ⟨a, s1, hs⟩ := progress inv hf
      have hlt := measure_step hs
      obtain ⟨sched, s2, hrun, hfin⟩ := ih s1 (by omega) (Inv_step inv hs)
      exact ⟨a :: sched, s2, by simp only [run, hs, hrun], hfin⟩

/-! ## Complete executions -/

theorem complete_state {total n : Nat} {s : State} (inv : Inv total n s) (hn : 1 ≤ n)
    (hf : s.finished = true) :
    s.chIn = [] ∧ s.workers.length = n ∧ (∀ w ∈ s.workers, w = Worker.done)
      ∧ (s.received.map FileInfo.FileName).Perm (allNames total)
      ∧ (s.writes.map WriteOp.path).Perm ((allNames total).map (filepathJoin tmpPath))
      ∧ s.agg = drainResults s.received := by
  obtain ⟨hlen, hall⟩ := inv.workers_done_of_closed (inv.finishedClosed hf)
  have hin : s.inClosed = true := by
    cases hws : s.workers with
    | nil => rw [hws] at hlen; simp at hlen; omega
    | cons w ws =>
      have hmem : w ∈ s.workers := by rw [hws]; simp
      exact inv.leftLoop w hmem (Or.inr (hall w hmem))
  have hch := inv.srcClosed hin
  have hnames : (s.received.map FileInfo.FileName).Perm (allNames total) := by
    rw [List.perm_iff_count]
    intro x
    have h1 := inv.names x
    have h2 : sumW (heldCount x) s.workers = 0 :=
      sumW_eq_zero _ _ (fun w hw => by rw [hall w hw]; rfl)
    rw [hch, h2] at h1
    simpa [jobNames] using h1
  have hwrites : (s.writes.map WriteOp.path).Perm
      ((s.received.map FileInfo.FileName).map (filepathJoin tmpPath)) := by
    rw [List.perm_iff_count]
    intro p
    have h1 := inv.writesCount p
    have h2 : sumW (writtenCount p) s.workers = 0 :=
      sumW_eq_zero _ _ (fun w hw => by rw [hall w hw]; rfl)
    rw [h2, Nat.zero_add] at h1
    rw [h1, List.map_map]
    rfl
  refine ⟨hch, hlen, hall, hnames, hwrites.trans (hnames.map _), ?_⟩
  have := inv.aggFold
  simpa [hf] using this

theorem allNames_nodup (total : Nat) : (allNames total).Nodup := by
  unfold allNames
  refine List.Nodup.map_on ?_ (List.nodup_range total)
  intro i _ j _ h
  exact sprintfFileName_injective i j h

theorem allPaths_nodup (total : Nat) :
    ((allNames total).map (filepathJoin tmpPath)).Nodup := by
  unfold allNames
  rw [List.map_map]
  refine List.Nodup.map_on ?_ (List.nodup_range total)
  intro i _ j _ h
  exact filepathJoin_injective i j h

theorem drainResults_counterTotal (rs : List FileInfo) :
    (drainResults rs).counterTotal = (rs.length : Int) := by
  simp [drainResults, aggFinish, foldl_aggStep_counterTotal, aggInit]

theorem drainResults_counterSuccess (rs : List FileInfo) :
    (drainResults rs).counterSuccess = (successCount rs : Int) := by
  simp [drainResults, aggFinish, foldl_aggStep_counterSuccess, aggInit]

theorem drainResults_log (rs : List FileInfo) :
    (drainResults rs).log
      = expectedErrorLines rs ++ [summaryLine (successCount rs : Int) (rs.length : Int)] := by
  simp [drainResults, aggFinish, foldl_aggStep_log, foldl_aggStep_counterTotal,
    foldl_aggStep_counterSuccess, aggInit]

/-! ## The synchronisation invariant, for any input channel -/

theorem ZeroInv_init (chIn : List ChanOp) : ZeroInv chIn (createFiles chIn 0) where
  noWorkers := rfl
  noResults := rfl
  noWrites := rfl
  jobsKept := rfl
  blocked := fun _ _ _ => rfl
  aggIdle := rfl

theorem ZeroInv_step {chIn : List ChanOp} {s s' : State} {a : Action} (inv : ZeroInv chIn s)
    (h : step 0 s a = some s') : ZeroInv chIn s' := by
  have hpanic : ZeroInv chIn { s with panicked := true } :=
    ⟨inv.noWorkers, inv.noResults, inv.noWrites, inv.jobsKept, inv.blocked, inv.aggIdle⟩
  have hnone : ∀ (w : Nat) (st : Worker), s.workers[w]? = some st → False := by
    intro w st hw
    rw [inv.noWorkers] at hw
    simp at hw
  cases a with
  | spawn =>
    obtain ⟨hl, _⟩ := step_spawn h
    omega
  | take w =>
    obtain ⟨_, _, hw, _, _⟩ := step_take h
    exact (hnone w _ hw).elim
  | work w src err =>
    obtain ⟨_, _, hw, _, _, _⟩ := step_work h
    exact (hnone w _ hw).elim
  | emit w =>
    obtain ⟨_, hw, _⟩ := step_emit h
    exact (hnone w _ hw).elim
  | inputClosed w =>
    obtain ⟨hw, _, _⟩ := step_inputClosed h
    exact (hnone w _ hw).elim
  | done w =>
    obtain ⟨hw, _⟩ := step_done h
    exact (hnone w _ hw).elim
  | closeIn =>
    obtain ⟨rest, hc, hcase⟩ := step_closeIn h
    rcases hcase with ⟨_, rfl⟩ | ⟨_, rfl⟩
    · exact hpanic
    · exact
        { noWorkers := inv.noWorkers
          noResults := inv.noResults
          noWrites := inv.noWrites
          jobsKept := by
            have := inv.jobsKept
            rw [hc] at this
            simpa only [pendingJobs] using this
          blocked := by
            intro job rest' hx
            have := inv.blocked job rest' hx
            rw [hc, hx] at this
            cases this
          aggIdle := inv.aggIdle }
  | waitReturn =>
    obtain ⟨_, _, rfl⟩ := step_waitReturn h
    exact ⟨inv.noWorkers, inv.noResults, inv.noWrites, inv.jobsKept, inv.blocked, inv.aggIdle⟩
  | closeOut =>
    obtain ⟨_, _, rfl⟩ := step_closeOut h
    exact ⟨inv.noWorkers, inv.noResults, inv.noWrites, inv.jobsKept, inv.blocked, inv.aggIdle⟩
  | drainEnd =>
    obtain ⟨_, hf, rfl⟩ := step_drainEnd h
    exact
      { noWorkers := inv.noWorkers
        noResults := inv.noResults
        noWrites := inv.noWrites
        jobsKept := inv.jobsKept
        blocked := inv.blocked
        aggIdle := by
          have := inv.aggIdle
          simp only [hf, Bool.false_eq_true, if_false] at this
          simp only [if_true, this] }

theorem ZeroInv_run {chIn : List ChanOp} (sched : List Action) : ∀ {s s' : State},
    ZeroInv chIn s → run 0 s sched = some s' → ZeroInv chIn s' := by
  induction sched with
  | nil =>
    intro s s' inv h
    simp only [run, Option.some.injEq] at h
    exact h ▸ inv
  | cons a sched ih =>
    intro s s' inv h
    simp only [run] at h
    cases hs : step 0 s a with
    | none => rw [hs] at h; cases h
    | some s1 =>
      rw [hs] at h
      exact ih (ZeroInv_step inv hs) h

/-! ## The claims -/

set_option maxRecDepth 100000

theorem eq_some_getD {α : Type} {o : Option α} (d : α) (h : o.isSome = true) :
    o = some (o.getD d) := by
  cases o with
  | none => cases h
  | some a => rfl

theorem sampleRun_isSome : (generateFiles 2 2 ⟨none, none⟩ sampleSchedule).isSome = true := by
  decide

theorem sentBeforeClose_generateFileIndexes (total : Nat) :
    sentBeforeClose (generateFileIndexes total) = (List.range total).map mkJob := by
  rw [generateFileIndexes_eq]
  generalize (List.range total).map mkJob = js
  induction js with
  | nil => rfl
  | cons j js ih => simp [sentBeforeClose, ih]

theorem pendingJobs_generateFileIndexes (total : Nat) :
    pendingJobs (generateFileIndexes total) = (List.range total).map mkJob := by
  rw [generateFileIndexes_eq]
  generalize (List.range total).map mkJob = js
  induction js with
  | nil => rfl
  | cons j js ih => simp [pendingJobs, ih]

/-- C2: for `totalFile = n` the goroutine of `generateFileIndexes` sends exactly
the `n` items `FileInfo{Index: i, FileName: "file-<decimal i>.txt"}` for
`i = 0, ..., n-1` in ascending order (`WorkerIndex` 0, `Err` nil) and closes the
channel after the last send and not before; for `n = 0` it only closes. -/
theorem generateFileIndexes_sends_in_order (n : Nat) :
    generateFileIndexes n
        = (List.range n).map (fun (i : Nat) => ChanOp.send
            { Index := (i : Int), FileName := "file-" ++ Nat.repr i ++ ".txt",
              WorkerIndex := 0, Err := none }) ++ [ChanOp.close]
      ∧ sentBeforeClose (generateFileIndexes n)
        = (List.range n).map (fun (i : Nat) =>
            ({ Index := (i : Int), FileName := "file-" ++ Nat.repr i ++ ".txt",
               WorkerIndex := 0, Err := none } : FileInfo))
      ∧ (∀ i : Nat, decimalValue (Nat.repr i).data = i
          ∧ ∀ c ∈ (Nat.repr i).data, c.isDigit = true)
      ∧ generateFileIndexes 0 = [ChanOp.close] := by
  refine ⟨?_, ?_, fun i => ⟨decimalValue_repr i, isDigit_repr i⟩, rfl⟩
  · rw [generateFileIndexes_eq, List.map_map]
    rfl
  · rw [sentBeforeClose_generateFileIndexes]
    rfl

/-- Counterexample to C4 as stated: `2 ^ 62` is a length `>= 0`, and
`make([]rune, 1 << 62)` panics, so `randomString` returns no string. -/
theorem randomString_huge_length_counterexample :
    (0 : Int) ≤ 2 ^ 62 ∧ randomString (2 ^ 62) (fun _ => 0) = none := by
  refine ⟨by norm_num, ?_⟩
  simp only [randomString, makeRunes_none (2 ^ 62) (by norm_num)]

/-- C4 as amended: for every `length` with `0 <= length` and
`4 * length <= maxAlloc = 2 ^ 48` and every behaviour of the random source,
`randomString length` returns a string of exactly `length` characters, each one
of the 52 letters a-z, A-Z; the index into the alphabet is never out of range,
and `randomString 0` is the empty string.  For a length with
`4 * length > 2 ^ 48` the call `make([]rune, length)` panics. -/
theorem randomString_length_and_alphabet (length : Int) (src : Nat → Nat) (hlen : 0 ≤ length)
    (hmax : 4 * length ≤ 2 ^ 48) :
    (∃ s, randomString length src = some s ∧ (s.length : Int) = length
        ∧ ∀ c ∈ s.data, c ∈ letters ∧ c.isAlpha = true)
      ∧ (∀ raw : Nat, ∃ idx, intn letters.length raw = some idx ∧ idx < letters.length
          ∧ (letters.get? idx).isSome = true)
      ∧ (∀ v : Nat, v < 52 → intn letters.length v = some v)
      ∧ letters = (List.range 26).map (fun k => Char.ofNat (97 + k))
          ++ (List.range 26).map (fun k => Char.ofNat (65 + k))
      ∧ randomString 0 src = some ""
      ∧ (∀ big : Int, 2 ^ 48 < 4 * big → randomString big src = none) := by
  obtain ⟨s, hs, hl, hall⟩ := randomString_spec length src hlen hmax
  refine ⟨⟨s, hs, hl, fun c hc => ⟨hall c hc, letters_isAlpha c (hall c hc)⟩⟩, ?_, ?_,
    by decide, rfl, ?_⟩
  · intro raw
    obtain ⟨r, hr, _⟩ := letters_get?_mod raw
    refine ⟨raw % 52, intn_letters raw, ?_, by rw [hr]; rfl⟩
    rw [letters_length]
    exact Nat.mod_lt _ (by decide)
  · intro v hv
    rw [intn_letters, Nat.mod_eq_of_lt hv]
  · intro big hbig
    simp only [randomString, makeRunes_none big hbig]

/-- Witness of C4 as amended, at length 3. -/
theorem randomString_length_and_alphabet_witness :
    (0 : Int) ≤ 3 ∧ (4 : Int) * 3 ≤ 2 ^ 48
      ∧ ∃ s, randomString 3 (fun k => 30 * k + 1) = some s ∧ (s.length : Int) = 3
        ∧ ∀ c ∈ s.data, c ∈ letters ∧ c.isAlpha = true :=
  ⟨by decide, by norm_num,
    (randomString_length_and_alphabet 3 (fun k => 30 * k + 1) (by decide) (by norm_num)).1⟩

/-- C5: for every sequence `rs` of results drained by the loop of
`generateFiles`, `counterTotal` ends as the length of `rs`, `counterSuccess` as
the number of results without error (so it is at most `counterTotal`), one error
line is logged per result with an error, naming its file, in arrival order, and
the summary is `<counterSuccess>/<counterTotal> of total files created`: `0/0`
for no results and `4/5` for five results of which exactly one has an error. -/
theorem drain_counts_and_logs (rs : List FileInfo) :
    (drainResults rs).counterTotal = (rs.length : Int)
      ∧ (drainResults rs).counterSuccess
          = (((rs.filter (fun r => r.Err.isNone)).length : Nat) : Int)
      ∧ (drainResults rs).counterSuccess ≤ (drainResults rs).counterTotal
      ∧ (drainResults rs).log
          = rs.filterMap (fun r => r.Err.map (fun e =>
              "error creating file " ++ r.FileName ++ ". stack trace: " ++ e))
            ++ [toString (drainResults rs).counterSuccess ++ "/"
                  ++ toString (drainResults rs).counterTotal ++ " of total files created"]
      ∧ (drainResults []).log = ["0/0 of total files created"]
      ∧ (rs.length = 5 → (rs.filter (fun r => r.Err.isSome)).length = 1 →
          (drainResults rs).log.getLast? = some "4/5 of total files created") := by
  have ht := drainResults_counterTotal rs
  have hs := drainResults_counterSuccess rs
  have hl := drainResults_log rs
  have hle := successCount_le rs
  refine ⟨ht, hs, by rw [ht, hs]; exact_mod_cast hle, ?_, by decide, ?_⟩
  · rw [hl, ht, hs]
    rfl
  · intro h5 h1
    have hsplit : successCount rs + (rs.filter (fun r => r.Err.isSome)).length = rs.length := by
      unfold successCount
      clear ht hs hl hle h5 h1
      induction rs with
      | nil => rfl
      | cons r rs ih =>
        cases hr : r.Err <;> simp [List.filter_cons, hr] <;> omega
    have h4 : successCount rs = 4 := by omega
    rw [hl, h4, h5, List.getLast?_concat]
    decide

/-- Witness of C5: five results, the one for `file-3.txt` failed. -/
theorem drain_counts_and_logs_witness :
    fiveResults.length = 5
      ∧ (fiveResults.filter (fun r => r.Err.isSome)).length = 1
      ∧ (drainResults fiveResults).log.getLast? = some "4/5 of total files created"
      ∧ (drainResults fiveResults).log
          = ["error creating file file-3.txt. stack trace: permission denied",
             "4/5 of total files created"] :=
  ⟨by decide, by decide,
    (drain_counts_and_logs fiveResults).2.2.2.2.2 (by decide) (by decide), by decide⟩

theorem allPaths_eq (total : Nat) :
    (allNames total).map (filepathJoin tmpPath)
      = (List.range total).map (fun i => "random-files/file-" ++ Nat.repr i ++ ".txt") := by
  unfold allNames
  rw [List.map_map]
  apply List.map_congr_left
  intro i _
  exact filepathJoin_sprintfFileName i

/-- C6: a worker `w` that has taken job `job` issues one write and, whatever the
outcome `e` of that write (nil or an error), blocks in the send of the single
result `FileInfo{FileName: job.FileName, WorkerIndex: w, Err: e}` (`Index` 0);
it can do nothing else in between (no retry, no exit from the loop), and once
the result is received the worker is back at the head of its range loop, ready
for the next job.  An idle worker takes the next job the source offers. -/
theorem worker_one_result_per_job (n : Nat) (s : State) (w : Nat) (job : FileInfo)
    (src : Nat → Nat) (e : Option String) (hp : s.panicked = false)
    (hw : s.workers[w]? = some (Worker.working job)) :
    (∃ content,
        step n s (Action.work w src e)
          = some { s with
              writes := s.writes
                ++ [{ path := filepathJoin tmpPath job.FileName, content := content }],
              progress := s.progress ++ [progressLine w job.FileName],
              workers := s.workers.set w (Worker.sending
                { Index := 0, FileName := job.FileName, WorkerIndex := (w : Int), Err := e }) })
      ∧ (step n s (Action.take w) = none ∧ step n s (Action.emit w) = none
          ∧ step n s (Action.inputClosed w) = none ∧ step n s (Action.done w) = none)
      ∧ (∀ t : State, t.panicked = false →
          t.workers[w]? = some (Worker.sending
            { Index := 0, FileName := job.FileName, WorkerIndex := (w : Int), Err := e }) →
          (step n t (Action.take w) = none ∧ step n t (Action.work w src e) = none
            ∧ step n t (Action.inputClosed w) = none ∧ step n t (Action.done w) = none)
          ∧ (t.outClosed = false → t.finished = false →
              step n t (Action.emit w)
                = some { t with
                    workers := t.workers.set w Worker.idle,
                    agg := aggStep t.agg
                      { Index := 0, FileName := job.FileName, WorkerIndex := (w : Int), Err := e },
                    received := t.received ++
                      [{ Index := 0, FileName := job.FileName, WorkerIndex := (w : Int),
                         Err := e }] }))
      ∧ (∀ (t : State) (next : FileInfo) (rest : List ChanOp), t.panicked = false →
          t.workers[w]? = some Worker.idle → t.chIn = ChanOp.send next :: rest →
          step n t (Action.take w)
            = some { t with chIn := rest, workers := t.workers.set w (Worker.working next) }) := by
  refine ⟨?_, ?_, ?_, ?_⟩
  · obtain ⟨content, hwr, _, _⟩ := workerWrite_some job src
    exact ⟨content, by simp [step, hp, hw, hwr, mkResult]⟩
  · refine ⟨?_, ?_, ?_, ?_⟩ <;> simp [step, hp, hw]
  · intro t htp htw
    refine ⟨⟨?_, ?_, ?_, ?_⟩, ?_⟩
    · simp [step, htp, htw]
    · simp [step, htp, htw]
    · simp [step, htp, htw]
    · simp [step, htp, htw]
    · intro hoc hf
      simp [step, htp, htw, hoc, hf]
  · intro t next rest htp htw hc
    simp [step, htp, htw, hc]

/-- Witness of C6: worker 0 holds job 0 and its write fails with `disk full`. -/
theorem worker_one_result_per_job_witness :
    holdingState.panicked = false
      ∧ holdingState.workers[0]? = some (Worker.working (mkJob 0))
      ∧ ∃ content,
          step 1 holdingState (Action.work 0 (fun k => k) (some "disk full"))
            = some { holdingState with
                writes := [{ path := filepathJoin tmpPath "file-0.txt", content := content }],
                progress := [progressLine 0 "file-0.txt"],
                workers := [Worker.sending
                  { Index := 0, FileName := "file-0.txt", WorkerIndex := 0,
                    Err := some "disk full" }] } :=
  ⟨rfl, rfl,
    (worker_one_result_per_job 1 holdingState 0 (mkJob 0) (fun k => k) (some "disk full")
      rfl rfl).1⟩

/-- Counterexample to C7 as stated: `os.MkdirAll` fails in a run with
`totalFile` files, and still a worker is started, job 0 is emitted and taken,
and a file write is performed. -/
theorem setup_failure_fatal_counterexample :
    failedSetup.mkdirAllErr ≠ none
      ∧ ∃ s, generateFiles totalFile 1 failedSetup firstWriteSchedule = some s
        ∧ s.workers.length = 1 ∧ s.chIn = generateFileIndexesFrom 1 2999
        ∧ s.writes.length = 1 ∧ s.panicked = false := by
  refine ⟨by decide,
    (generateFiles totalFile 1 failedSetup firstWriteSchedule).getD (createFiles [] 0),
    eq_some_getD _ (by decide), by decide, by rfl, by decide, by decide⟩

/-- C7 as amended: an error of `os.RemoveAll` or `os.MkdirAll` is discarded.  The
run is the one obtained when both succeed; it does not panic, it can always be
run to completion, and with at least one worker a complete execution has
started all workers, emitted every job, issued one write per job and received
`total` results. -/
theorem setup_failure_ignored (total n : Nat) (setup : SetupOutcome) (sched : List Action)
    (s : State) (hn : 1 ≤ n)
    (_hfail : setup.removeAllErr ≠ none ∨ setup.mkdirAllErr ≠ none)
    (hrun : generateFiles total n setup sched = some s) :
    generateFiles total n { removeAllErr := none, mkdirAllErr := none } sched = some s
      ∧ s.panicked = false
      ∧ (∃ sched' s', run n s sched' = some s' ∧ s'.finished = true)
      ∧ (s.finished = true →
          s.workers.length = n ∧ pendingJobs s.chIn = [] ∧ s.writes.length = total
            ∧ s.received.length = total ∧ s.agg.counterTotal = (total : Int)) := by
  have hrun' : run n (createFiles (generateFileIndexes total) n) sched = some s := hrun
  have inv : Inv total n s := Inv_run sched (Inv_init total n) hrun'
  refine ⟨hrun, inv.noPanic, exists_completion _ s (le_refl _) inv, ?_⟩
  intro hf
  obtain ⟨hch, hlen, _, hperm, hwr, hagg⟩ := complete_state inv hn hf
  have hrl : s.received.length = total := by
    have := hperm.length_eq
    simpa [allNames] using this
  have hwl : s.writes.length = total := by
    have := hwr.length_eq
    simpa [allNames] using this
  refine ⟨hlen, by rw [hch]; rfl, hwl, hrl, ?_⟩
  rw [hagg, drainResults_counterTotal, hrl]

/-- Witness of C7 as amended: `os.MkdirAll` fails, the only write fails too, and
the run still completes with one result. -/
theorem setup_failure_ignored_witness :
    generateFiles 1 1 failedSetup failedRunSchedule = some failedRunFinal
      ∧ failedRunFinal.finished = true
      ∧ failedRunFinal.workers.length = 1 ∧ pendingJobs failedRunFinal.chIn = []
      ∧ failedRunFinal.writes.length = 1 ∧ failedRunFinal.received.length = 1
      ∧ failedRunFinal.agg.counterTotal = 1 := by
  have hs : generateFiles 1 1 failedSetup failedRunSchedule = some failedRunFinal :=
    eq_some_getD _ (by decide)
  have hf : failedRunFinal.finished = true := by decide
  exact ⟨hs, hf,
    (setup_failure_ignored 1 1 failedSetup failedRunSchedule failedRunFinal (by decide)
      (Or.inr (by decide)) hs).2.2.2 hf⟩

/-- C8: the file name is an injective function of the index: for `i != j` the
names `file-<i>.txt` and `file-<j>.txt` differ, and so do the paths
`filepath.Join(tmpPath, name)` the workers write to; hence no two of the jobs
emitted target the same path. -/
theorem file_names_and_paths_injective (total i j : Nat) (hij : i ≠ j) :
    sprintfFileName i = "file-" ++ Nat.repr i ++ ".txt"
      ∧ sprintfFileName i ≠ sprintfFileName j
      ∧ filepathJoin tmpPath (sprintfFileName i) ≠ filepathJoin tmpPath (sprintfFileName j)
      ∧ ((sentBeforeClose (generateFileIndexes total)).map FileInfo.FileName).Nodup
      ∧ ((sentBeforeClose (generateFileIndexes total)).map
          (fun job => filepathJoin tmpPath job.FileName)).Nodup := by
  refine ⟨rfl, fun h => hij (sprintfFileName_injective i j h),
    fun h => hij (filepathJoin_injective i j h), ?_, ?_⟩
  · rw [sentBeforeClose_generateFileIndexes, List.map_map]
    exact allNames_nodup total
  · rw [sentBeforeClose_generateFileIndexes, List.map_map]
    have := allPaths_nodup total
    unfold allNames at this
    rw [List.map_map] at this
    exact this

/-- Witness of C8 at the indices 1 and 10 of a run with `totalFile` files. -/
theorem file_names_and_paths_injective_witness :
    (1 : Nat) ≠ 10
      ∧ sprintfFileName 1 ≠ sprintfFileName 10
      ∧ filepathJoin tmpPath (sprintfFileName 1) ≠ filepathJoin tmpPath (sprintfFileName 10) :=
  ⟨by decide, (file_names_and_paths_injective totalFile 1 10 (by decide)).2.1,
    (file_names_and_paths_injective totalFile 1 10 (by decide)).2.2.1⟩

/-- C9: for the job with index `i` the write a worker issues targets
`random-files/file-<i>.txt` with a payload of exactly 5000 bytes, all of them
ASCII letters (so 5000 characters and no newline).  In every reachable state
each write issued so far has this form, and in a complete execution with at
least one worker the paths written are exactly those of the jobs, once each. -/
theorem worker_write_path_and_payload (total n : Nat) (setup : SetupOutcome)
    (sched : List Action) (s : State) (hrun : generateFiles total n setup sched = some s) :
    (∀ (i : Nat) (src : Nat → Nat), ∃ content,
        workerWrite (mkJob i) src
            = some { path := "random-files/file-" ++ Nat.repr i ++ ".txt", content := content }
          ∧ content.utf8ByteSize = 5000 ∧ content.length = 5000
          ∧ ∀ c ∈ content.data, c ∈ letters ∧ c.isAlpha = true ∧ c ≠ '\n')
      ∧ (∀ op ∈ s.writes,
          (∃ i, i < total ∧ op.path = "random-files/file-" ++ Nat.repr i ++ ".txt")
            ∧ op.content.utf8ByteSize = 5000 ∧ op.content.length = 5000
            ∧ ∀ c ∈ op.content.data, c ∈ letters)
      ∧ (1 ≤ n → s.finished = true →
          (s.writes.map WriteOp.path).Perm
            ((List.range total).map (fun i => "random-files/file-" ++ Nat.repr i ++ ".txt"))) := by
  have hrun' : run n (createFiles (generateFileIndexes total) n) sched = some s := hrun
  have inv : Inv total n s := Inv_run sched (Inv_init total n) hrun'
  have hlen5000 : ∀ content : String, (content.length : Int) = contentLength →
      content.length = 5000 := by
    intro content h
    simp only [contentLength] at h
    omega
  refine ⟨?_, ?_, ?_⟩
  · intro i src
    obtain ⟨content, hwr, hlen, hall⟩ := workerWrite_some (mkJob i) src
    have h5 := hlen5000 content hlen
    refine ⟨content, ?_, ?_, h5, ?_⟩
    · rw [hwr]
      show some ({ path := filepathJoin tmpPath (sprintfFileName i), content := content }
        : WriteOp) = _
      rw [filepathJoin_sprintfFileName]
    · rw [utf8ByteSize_letters content hall, h5]
    · intro c hc
      refine ⟨hall c hc, letters_isAlpha c (hall c hc), ?_⟩
      intro hnl
      have := hall c hc
      rw [hnl] at this
      revert this
      decide
  · intro op hop
    obtain ⟨⟨i, hi, hpath⟩, hlen, hall⟩ := inv.writesForm op hop
    have h5 := hlen5000 op.content hlen
    refine ⟨⟨i, hi, ?_⟩, ?_, h5, hall⟩
    · rw [hpath, filepathJoin_sprintfFileName]
    · rw [utf8ByteSize_letters op.content hall, h5]
  · intro hn hf
    obtain ⟨_, _, _, _, hwr, _⟩ := complete_state inv hn hf
    rw [allPaths_eq] at hwr
    exact hwr

/-- Witness of C9: the two writes of the run `sampleSchedule`. -/
theorem worker_write_path_and_payload_witness :
    generateFiles 2 2 ⟨none, none⟩ sampleSchedule = some sampleFinal
      ∧ (sampleFinal.writes.map WriteOp.path).Perm
          ["random-files/file-0.txt", "random-files/file-1.txt"]
      ∧ ∀ op ∈ sampleFinal.writes, op.content.utf8ByteSize = 5000 := by
  have hs : generateFiles 2 2 ⟨none, none⟩ sampleSchedule = some sampleFinal :=
    eq_some_getD _ sampleRun_isSome
  have h := worker_write_path_and_payload 2 2 ⟨none, none⟩ sampleSchedule sampleFinal hs
  exact ⟨hs, h.2.2 (by decide) (by decide), fun op hop => (h.2.1 op hop).2.1⟩

/-- C10: `createFiles(chIn, 0)` never sends a result, whatever `chIn` holds: no
worker exists, no job is taken from `chIn` (a job source blocked on its first
send stays there), nothing is written, the counters stay 0 and a finished
draining loop has logged `0/0`; and the supervisor can close `chOut` at once, so
the draining loop does finish. -/
theorem zero_workers_no_results (chIn : List ChanOp) (sched : List Action) (s : State)
    (hrun : run 0 (createFiles chIn 0) sched = some s) :
    s.workers = [] ∧ s.received = [] ∧ s.writes = []
      ∧ pendingJobs s.chIn = pendingJobs chIn
      ∧ (∀ job rest, chIn = ChanOp.send job :: rest → s.chIn = chIn)
      ∧ s.agg.counterTotal = 0 ∧ s.agg.counterSuccess = 0
      ∧ (s.finished = true → s.agg.log = ["0/0 of total files created"])
      ∧ run 0 (createFiles chIn 0) [Action.waitReturn, Action.closeOut, Action.drainEnd]
          = some { createFiles chIn 0 with
              waited := true, outClosed := true, finished := true,
              agg := { counterTotal := 0, counterSuccess := 0,
                       log := ["0/0 of total files created"] } } := by
  have inv : ZeroInv chIn s := ZeroInv_run sched (ZeroInv_init chIn) hrun
  have hagg := inv.aggIdle
  refine ⟨inv.noWorkers, inv.noResults, inv.noWrites, inv.jobsKept, inv.blocked, ?_, ?_, ?_, rfl⟩
  · rw [hagg]; split <;> rfl
  · rw [hagg]; split <;> rfl
  · intro hf
    rw [hagg, hf]
    rfl

/-- Witness of C10: the job source of the program, with `totalFile` jobs pending,
and the schedule in which the supervisor and the draining loop run to their
end. -/
theorem zero_workers_no_results_witness :
    run 0 (createFiles (generateFileIndexes totalFile) 0)
        [Action.waitReturn, Action.closeOut, Action.drainEnd] = some zeroFinal
      ∧ zeroFinal.finished = true
      ∧ zeroFinal.received = []
      ∧ zeroFinal.agg.log = ["0/0 of total files created"]
      ∧ zeroFinal.chIn = generateFileIndexes totalFile
      ∧ (pendingJobs zeroFinal.chIn).length = 3000 := by
  have h := zero_workers_no_results (generateFileIndexes totalFile)
    [Action.waitReturn, Action.closeOut, Action.drainEnd] zeroFinal rfl
  refine ⟨rfl, rfl, h.2.1, h.2.2.2.2.2.2.2.1 rfl, rfl, ?_⟩
  rw [h.2.2.2.1, pendingJobs_generateFileIndexes]
  simp [totalFile]

end Pipeline
